import Mathlib

/-!
Verification of the CTC decoding and label-encoding core of the
`speech_emotion` repository (a SpeechBrain snapshot).

The development shallowly embeds:
* `speechbrain/data_io/encoder.py` — the `CategoricalEncoder` family
  (`add_label`, `ensure_label`, `insert_label`, `enforce_label`, `add_unk`,
  `encode_label`, `is_continuous`, `collapse_labels`, `_save_literal`,
  `_load_literal`);
* `speechbrain/decoders/ctc.py` — `CTCPrefixScorer.__init__`,
  `CTCPrefixScorer.forward_step` (full-vocabulary search path),
  `filter_ctc_output` and `ctc_greedy_decode`.

Python dictionaries are embedded as Mathlib `AList`s (finite maps given by
association lists without duplicate keys); a Python attribute that is only
sometimes set (`unk_label`, `bos_label`, `eos_label`, `blank_label`) is
embedded as an `Option` field, `none` meaning the attribute was never set.
Label indices are embedded as naturals, following the spec's data model
("values unique non-negative integers").  Real-valued scores are embedded
as `WithBot ℚ` (rationals extended with `⊥` standing for `-inf`).
-/

namespace SpeechEmotion


/-! ## Dictionary-key scanning: `CategoricalEncoder._next_index`

`_next_index` is the loop
`index = self.starting_index; while index in self.ind2lab: index += 1`.
Here `occ` is the list of occupied indices (the keys of `ind2lab`). -/

/-- The loop body of `_next_index`, with explicit fuel so that the
definition is structural (the Python loop terminates because the dict is
finite; `occ.length + 1` iterations always suffice, see
`nextFreeGo_spec`). -/
def nextFreeGo (occ : List ℕ) : ℕ → ℕ → ℕ
  | 0, i => i
  | fuel + 1, i => if i ∈ occ then nextFreeGo occ fuel (i + 1) else i

/-- `while index in occ: index += 1` starting at `i`: the first index `≥ i`
that is not occupied. -/
def nextFree (occ : List ℕ) (i : ℕ) : ℕ :=
  nextFreeGo occ (occ.length + 1) i

/-! ## `CategoricalEncoder` (with the `TextEncoder` / `CTCTextEncoder`
attribute slots)

The Python class keeps two dicts `lab2ind` / `ind2lab`, an int
`starting_index`, and optionally-set attributes `unk_label` (base class),
`bos_label` / `eos_label` (`TextEncoder`) and `blank_label`
(`CTCTextEncoder`).  All attribute slots are carried here so that one state
type covers the whole class family; `none` means "attribute never set". -/

structure CategoricalEncoder (L : Type) [DecidableEq L] where
  lab2ind : AList (fun _ : L => ℕ)
  ind2lab : AList (fun _ : ℕ => L)
  starting_index : ℕ
  unk_label : Option L
  bos_label : Option L
  eos_label : Option L
  blank_label : Option L

variable {L : Type} [DecidableEq L]

namespace CategoricalEncoder

/-- `CategoricalEncoder(starting_index=s)` without special labels. -/
def mkEmpty (s : ℕ) : CategoricalEncoder L :=
  ⟨∅, ∅, s, none, none, none, none⟩

/-- `self._next_index()`. -/
def next_index (e : CategoricalEncoder L) : ℕ :=
  nextFree e.ind2lab.keys e.starting_index

/-- `add_label(label)`.  The first component is `some index` on success and
`none` when the Python code raises `KeyError("Label already present")`;
the second component is the encoder state after the call (unchanged when
the error is raised, since the raise happens before any mutation). -/
def add_label (e : CategoricalEncoder L) (label : L) :
    Option ℕ × CategoricalEncoder L :=
  if label ∈ e.lab2ind then (none, e)
  else
    let index := e.next_index
    (some index,
      { e with
        lab2ind := e.lab2ind.insert label index
        ind2lab := e.ind2lab.insert index label })

/-- `ensure_label(label)`. -/
def ensure_label (e : CategoricalEncoder L) (label : L) :
    Option ℕ × CategoricalEncoder L :=
  match e.lab2ind.lookup label with
  | some i => (some i, e)
  | none => e.add_label label

/-- `enforce_label(label, index)`.  Mirrors the source step by step:
delete the old index binding when the label moves, push the new binding,
and finally relocate a displaced occupant to `_next_index()` (computed
after the push, as in the source). -/
def enforce_label (e : CategoricalEncoder L) (label : L) (index : ℕ) :
    CategoricalEncoder L :=
  match e.lab2ind.lookup label with
  | some old =>
      if index = old then e
      else
        enforcePush { e with ind2lab := e.ind2lab.erase old } label index
  | none => enforcePush e label index
where
  /-- The part of `enforce_label` after the "delete old index mapping"
  step: move any occupant of `index` out of the way. -/
  enforcePush (e : CategoricalEncoder L) (label : L) (index : ℕ) :
      CategoricalEncoder L :=
    match e.ind2lab.lookup index with
    | some saved_label =>
        let e' := { e with
          lab2ind := e.lab2ind.insert label index
          ind2lab := e.ind2lab.insert index label }
        let new_index := e'.next_index
        { e' with
          lab2ind := e'.lab2ind.insert saved_label new_index
          ind2lab := e'.ind2lab.insert new_index saved_label }
    | none =>
        { e with
          lab2ind := e.lab2ind.insert label index
          ind2lab := e.ind2lab.insert index label }

/-- `insert_label(label, index)`: raises (first component `false`, state
unchanged) when the label is already present, otherwise delegates to
`enforce_label`. -/
def insert_label (e : CategoricalEncoder L) (label : L) (index : ℕ) :
    Bool × CategoricalEncoder L :=
  if label ∈ e.lab2ind then (false, e)
  else (true, e.enforce_label label index)

/-- `add_unk(unk_label)`: sets the `unk_label` attribute first and only then
calls `add_label` (which may raise). -/
def add_unk (e : CategoricalEncoder L) (unk : L) :
    Option ℕ × CategoricalEncoder L :=
  add_label { e with unk_label := some unk } unk

/-- The four `raise KeyError(...)` sites reachable from `encode_label`,
one constructor per distinct message (so distinguishable errors are
distinguishable constructors):
* `unkDisallowed`: "Unknown label ..., and explicitly disallowed the use
  of the existing unk-label";
* `noUnkRegistered`: "Cannot encode unknown label ....  You have not
  called add_unk() to add a special unk-label for unknown labels.";
* `wouldNotEncode`: "Couldn't and wouldn't encode unknown label ....";
* `unkNotInMapping`: the `KeyError` that `self.lab2ind[self.unk_label]`
  itself would raise if the registered unk label were missing from the
  mapping. -/
inductive EncodeError (L : Type) where
  | unkDisallowed (label : L)
  | noUnkRegistered (label : L)
  | wouldNotEncode (label : L)
  | unkNotInMapping
  deriving DecidableEq

/-- `encode_label(label, allow_unk)`. -/
def encode_label (e : CategoricalEncoder L) (label : L) (allow_unk : Bool) :
    Except (EncodeError L) ℕ :=
  match e.lab2ind.lookup label with
  | some i => .ok i
  | none =>
    match e.unk_label, allow_unk with
    | some u, true =>
      match e.lab2ind.lookup u with
      | some iu => .ok iu
      | none => .error .unkNotInMapping
    | some _, false => .error (.unkDisallowed label)
    | none, true => .error (.noUnkRegistered label)
    | none, false => .error (.wouldNotEncode label)

/-- `is_continuous()`:
`indices = sorted(self.ind2lab.keys())`, then
`starting_index in indices and all(j - i == 1 for i, j in
zip(indices[:-1], indices[1:]))`.  Python's `sorted` is embedded as
insertion sort; on a duplicate-free list of naturals both produce the one
sorted permutation. -/
def is_continuous (e : CategoricalEncoder L) : Bool :=
  let indices := List.insertionSort (· ≤ ·) e.ind2lab.keys
  decide (e.starting_index ∈ indices) &&
    (indices.zip indices.tail).all (fun p => decide (p.2 - p.1 = 1))

/-- `CTCTextEncoder.collapse_labels(x, merge_repeats)`.  The
`merge_repeats` branch is the comprehension
`[label for i, label in enumerate(x)
  if (i == 0 or label != x[i-1]) and label != self.blank_label]`. -/
def collapse_labels (e : CategoricalEncoder L) (x : List L)
    (merge_repeats : Bool) : Except String (List L) :=
  match e.blank_label with
  | none => .error "Blank label has not been added"
  | some blank =>
    if merge_repeats then
      .ok ((x.enum.filter (fun p =>
        decide ((p.1 = 0 ∨ x.get? (p.1 - 1) ≠ some p.2) ∧
          p.2 ≠ blank))).map Prod.snd)
    else
      .ok (x.filter (fun label => decide (label ≠ blank)))

/-- The property the C4 claim asserts `is_continuous` decides, following
the claim's wording: the set of occupied indices forms an unbroken run of
consecutive integers that starts at `starting_index` (so the run's least
element is `starting_index` itself). -/
def SpecRunFromStart (e : CategoricalEncoder L) : Prop :=
  ∀ i : ℕ, i ∈ e.ind2lab ↔
    e.starting_index ≤ i ∧
      i < e.starting_index + e.ind2lab.keys.length

/-- The mutations quantified over in the bijection-invariant claim. -/
inductive EncOp (L : Type) where
  | add_label (l : L)
  | ensure_label (l : L)
  | insert_label (l : L) (i : ℕ)
  | enforce_label (l : L) (i : ℕ)
  | add_unk (l : L)

/-- State effect of one mutation (raised errors leave exactly the state the
source leaves behind at the raise point). -/
def applyOp (e : CategoricalEncoder L) : EncOp L → CategoricalEncoder L
  | .add_label l => (e.add_label l).2
  | .ensure_label l => (e.ensure_label l).2
  | .insert_label l i => (e.insert_label l i).2
  | .enforce_label l i => e.enforce_label l i
  | .add_unk l => (e.add_unk l).2

/-- Run a sequence of mutations from a given state. -/
def runOps (e : CategoricalEncoder L) : List (EncOp L) → CategoricalEncoder L
  | [] => e
  | op :: rest => runOps (e.applyOp op) rest

/-- The bijection invariant: `lab2ind` and `ind2lab` are exact inverses. -/
def Inverse (e : CategoricalEncoder L) : Prop :=
  ∀ (l : L) (i : ℕ),
    e.lab2ind.lookup l = some i ↔ e.ind2lab.lookup i = some l

/-- Precondition under which `enforce_label.enforcePush` runs: away from
`label` the two maps are inverse, and no index currently decodes to
`label`. -/
def PrePush (e : CategoricalEncoder L) (label : L) : Prop :=
  (∀ (l : L) (i : ℕ), l ≠ label →
      (e.lab2ind.lookup l = some i ↔ e.ind2lab.lookup i = some l)) ∧
  ∀ i : ℕ, e.ind2lab.lookup i ≠ some label

end CategoricalEncoder

/-! ## `speechbrain/decoders/ctc.py`: greedy decoding

Tensors are embedded as nested lists of rationals; `torch.round` rounds
halves to even, and `torch.max(..., dim=1)` returns the first index
attaining the maximum. -/

/-- `torch.round`: round to nearest, halves to even. -/
def roundHalfEven (q : ℚ) : ℤ :=
  let f := ⌊q⌋
  if q - f < 1 / 2 then f
  else if 1 / 2 < q - f then f + 1
  else if Even f then f else f + 1

/-- Scan for the first index attaining the maximum (`torch.max` along a
row): `i` is the index of the head of the remaining list, `bi`/`bv` the
best index and value so far. -/
def argmaxFrom (i bi : ℕ) (bv : ℚ) : List ℚ → ℕ
  | [] => bi
  | q :: rest =>
    if bv < q then argmaxFrom (i + 1) i q rest
    else argmaxFrom (i + 1) bi bv rest

/-- Index of the (first) maximal entry of a row. -/
def argmax (row : List ℚ) : ℕ :=
  match row with
  | [] => 0
  | q :: rest => argmaxFrom 1 0 q rest

/-- `probabilities.shape[-1]` (vocabulary axis). -/
def vocab_of (probabilities : List (List (List ℚ))) : ℕ :=
  ((probabilities.head?.getD []).head?.getD []).length

/-- `probabilities.shape[1]` (time axis, `batch_max_len` in the source). -/
def batch_max_len_of (probabilities : List (List (List ℚ))) : ℕ :=
  (probabilities.head?.getD []).length

/-- `filter_ctc_output(string_pred, blank_id)` on a list of ints: first
the comprehension
`[v for i, v in enumerate(string_pred) if i == 0 or v != string_pred[i-1]]`,
then `[i[0] for i in groupby(string_out)]` (heads of runs of equal
elements, i.e. `List.destutter (· ≠ ·)`), then removal of the blank. -/
def filter_ctc_output (string_pred : List ℤ) (blank_id : ℤ) : List ℤ :=
  (((string_pred.enum.filter (fun p =>
      decide (p.1 = 0 ∨ string_pred.get? (p.1 - 1) ≠ some p.2))).map
      Prod.snd).destutter (· ≠ ·)).filter (fun v => decide (v ≠ blank_id))

/-- `ctc_greedy_decode(probabilities, seq_lens, blank_id)`. -/
def ctc_greedy_decode (probabilities : List (List (List ℚ)))
    (seq_lens : List ℚ) (blank_id : ℤ) : List (List ℤ) :=
  (probabilities.zip seq_lens).map (fun sp =>
    filter_ctc_output
      ((sp.1.take
          (roundHalfEven
            (sp.2 * (batch_max_len_of probabilities : ℚ))).toNat).map
        (fun row => (argmax row : ℤ)))
      (if blank_id < 0 then (vocab_of probabilities : ℤ) + blank_id
       else blank_id))

/-- The CTC collapse rule as the spec words it: merge consecutive
duplicates (one pass), then strip all blanks. -/
def ctcCollapse (blank : ℤ) (l : List ℤ) : List ℤ :=
  (l.destutter (· ≠ ·)).filter (fun v => decide (v ≠ blank))

/-- Proof-side recursion computing, for each element, whether it differs
from its predecessor in the original list (`prev` is the original
predecessor of the head). -/
def dedupFromPrev {α : Type} [DecidableEq α] (prev : α) :
    List α → List α
  | [] => []
  | b :: bs =>
    if b = prev then dedupFromPrev b bs else b :: dedupFromPrev b bs

/-! ## `CTCPrefixScorer`

The emission tensor is embedded as a function
`batch → time → vocab → WithBot ℚ`.  `torch.logsumexp` over real
log-probabilities is not a rational-valued operation, so every definition
below is parameterized over an abstract `lse : List (WithBot ℚ) → WithBot ℚ`
(the claims under verification concern index bookkeeping and hold for
every such function); the remaining arithmetic (`+`, cumulative sums,
`psi - psi_prev` and the `-inf` fills) is concrete. -/

/-- Modelled from the spec: `length_to_mask` is imported from
`speechbrain.data_io.data_io`, a module absent from this snapshot's
sources; per the spec's construction step ("mask out timesteps beyond
each utterance's valid length"), the mask is true exactly on the valid
timesteps: `mask[b][t] = t < enc_lens[b]`. -/
def length_to_mask (enc_lens : ℕ → ℕ) (b t : ℕ) : Bool :=
  decide (t < enc_lens b)

/-- Lines 31–34 of `ctc.py`:
`mask = 1 - length_to_mask(enc_lens)`, then
`x.masked_fill_(mask, -np.inf)` (every vocabulary channel of every padded
timestep becomes `-inf`), then
`x[:, :, 0] = x[:, :, 0].masked_fill_(mask[:, :, 0], 0)` (channel `0` — a
hard-coded index, not `self.blank_index` — of every padded timestep is
then set to `0`).  This is the content of the caller's tensor after the
in-place `masked_fill_` calls. -/
def maskEmissions (x : ℕ → ℕ → ℕ → WithBot ℚ) (enc_lens : ℕ → ℕ)
    (b t v : ℕ) : WithBot ℚ :=
  if length_to_mask enc_lens b t then x b t v
  else if v = 0 then 0 else ⊥

/-- The scorer state built by `CTCPrefixScorer.__init__`: `x` (the stacked
pair `xnb`/`xb`) is kept as the two time-major functions `xnb` (dim 0,
non-blank posteriors) and `xb` (dim 1, the blank column broadcast over the
vocabulary axis). -/
structure CTCPrefixScorer where
  blank_index : ℕ
  eos_index : ℕ
  max_enc_len : ℕ
  batch_size : ℕ
  beam_size : ℕ
  vocab_size : ℕ
  last_frame_index : ℕ → ℕ
  xnb : ℕ → ℕ → ℕ → WithBot ℚ
  xb : ℕ → ℕ → ℕ → WithBot ℚ

namespace CTCPrefixScorer

/-- `CTCPrefixScorer.__init__(x, enc_lens, batch_size, beam_size,
blank_index, eos_index)`.  The first component is the constructed scorer;
the second is the content of the caller's emission tensor after
construction (`masked_fill_` mutates it in place). -/
def init (x : ℕ → ℕ → ℕ → WithBot ℚ) (enc_lens : ℕ → ℕ)
    (max_enc_len batch_size beam_size vocab_size blank_index eos_index : ℕ) :
    CTCPrefixScorer × (ℕ → ℕ → ℕ → WithBot ℚ) :=
  ({ blank_index := blank_index
     eos_index := eos_index
     max_enc_len := max_enc_len
     batch_size := batch_size
     beam_size := beam_size
     vocab_size := vocab_size
     last_frame_index := fun b => enc_lens b - 1
     xnb := fun t b v => maskEmissions x enc_lens b t v
     xb := fun t b _ => maskEmissions x enc_lens b t blank_index },
   maskEmissions x enc_lens)

/-- `r_prev[:, 1] = torch.cumsum(self.x[0, :, :, self.blank_index], 0)`:
cumulative sum of the non-blank view's blank column over time. -/
def cumsumBlank (P : CTCPrefixScorer) : ℕ → ℕ → WithBot ℚ
  | 0, b => P.xnb 0 b P.blank_index
  | t + 1, b => cumsumBlank P t b + P.xnb (t + 1) b P.blank_index

/-- The `r_prev` table built in `forward_step` when `state is None`
(dim `false` = non-blank, filled `-inf`; dim `true` = blank, the
cumulative blank posterior, broadcast over the beam axis). -/
def r_prev_init (P : CTCPrefixScorer) (t : ℕ) (d : Bool) (i : ℕ) :
    WithBot ℚ :=
  if d then cumsumBlank P t (i / P.beam_size) else ⊥

/-- `prefix_length = g.size(1)`. -/
def prefix_length (g : List (List ℕ)) : ℕ :=
  (g.head?.getD []).length

/-- `last_char = [gi[-1] for gi in g] if prefix_length > 0 else [0]*len(g)`. -/
def last_char (g : List (List ℕ)) (i : ℕ) : ℕ :=
  if prefix_length g = 0 then 0
  else ((g.get? i).bind List.getLast?).getD 0

/-- The full-search `x_inflate`: `self.x` repeated over the beam axis
(entry `[d, t, i, c]` reads batch element `i / beam_size`). -/
def x_inflate (P : CTCPrefixScorer) (d : Bool) (t i c : ℕ) : WithBot ℚ :=
  if d then P.xb t (i / P.beam_size) c else P.xnb t (i / P.beam_size) c

/-- `r_sum = torch.logsumexp(r_prev, 1)`. -/
def r_sum (lse : List (WithBot ℚ) → WithBot ℚ)
    (rp : ℕ → Bool → ℕ → WithBot ℚ) (t i : ℕ) : WithBot ℚ :=
  lse [rp t false i, rp t true i]

/-- `phi`: `r_sum` repeated over candidates, except at the prefix's own
last character, where only the blank mass `r_prev[:, 1]` is used. -/
def phi (lse : List (WithBot ℚ) → WithBot ℚ) (g : List (List ℕ))
    (rp : ℕ → Bool → ℕ → WithBot ℚ) (t i c : ℕ) : WithBot ℚ :=
  if c = last_char g i then rp t true i else r_sum lse rp t i

/-- The forward table `r` of `forward_step` (full-vocabulary search):
initialized to `-inf`, row 0 non-blank seeded with `x_inflate[0, 0]` for
the empty prefix, then the recursion of lines 152–162 for
`t ∈ [max(1, prefix_length), max_enc_len)`. -/
def rTab (lse : List (WithBot ℚ) → WithBot ℚ) (P : CTCPrefixScorer)
    (g : List (List ℕ)) (rp : ℕ → Bool → ℕ → WithBot ℚ) :
    ℕ → Bool → ℕ → ℕ → WithBot ℚ
  | 0, d, i, c =>
    if prefix_length g = 0 ∧ d = false then x_inflate P false 0 i c else ⊥
  | t + 1, d, i, c =>
    if t + 1 < max 1 (prefix_length g) then ⊥
    else if d = false then
      lse [rTab lse P g rp t false i c, phi lse g rp t i c] +
        x_inflate P false (t + 1) i c
    else
      lse [rTab lse P g rp t false i c, rTab lse P g rp t true i c] +
        x_inflate P true (t + 1) i c

/-- `psi_init = r[start - 1, 0]`. -/
def psi_init (lse : List (WithBot ℚ) → WithBot ℚ) (P : CTCPrefixScorer)
    (g : List (List ℕ)) (rp : ℕ → Bool → ℕ → WithBot ℚ) (i c : ℕ) :
    WithBot ℚ :=
  rTab lse P g rp (max 1 (prefix_length g) - 1) false i c

/-- `phix = torch.cat((phi[0].unsqueeze(0), phi[:-1]), dim=0) + x_inflate[0]`. -/
def phix (lse : List (WithBot ℚ) → WithBot ℚ) (P : CTCPrefixScorer)
    (g : List (List ℕ)) (rp : ℕ → Bool → ℕ → WithBot ℚ) (t i c : ℕ) :
    WithBot ℚ :=
  (if t = 0 then phi lse g rp 0 i c else phi lse g rp (t - 1) i c) +
    x_inflate P false t i c

/-- `psi = torch.logsumexp(torch.cat((phix[start:end], psi_init)), 0)`. -/
def psi_main (lse : List (WithBot ℚ) → WithBot ℚ) (P : CTCPrefixScorer)
    (g : List (List ℕ)) (rp : ℕ → Bool → ℕ → WithBot ℚ) (i c : ℕ) :
    WithBot ℚ :=
  lse (((List.range' (max 1 (prefix_length g))
      (P.max_enc_len - max 1 (prefix_length g))).map
    (fun t => phix lse P g rp t i c)) ++ [psi_init lse P g rp i c])

/-- `psi` after the two overwrites of lines 185–192: the end-of-sequence
column is replaced by `r_sum` at the hypothesis's last valid frame, and
then the blank column by `-inf` (so if `eos_index = blank_index` the
blank fill wins, as the blank assignment runs last). -/
def psi_final (lse : List (WithBot ℚ) → WithBot ℚ) (P : CTCPrefixScorer)
    (g : List (List ℕ)) (rp : ℕ → Bool → ℕ → WithBot ℚ) (i c : ℕ) :
    WithBot ℚ :=
  if c = P.blank_index then ⊥
  else if c = P.eos_index then
    r_sum lse rp (P.last_frame_index (i / P.beam_size)) i
  else psi_main lse P g rp i c

/-- `psi - psi_prev` entrywise.  `-inf - q = -inf` for finite `q`, as in
IEEE arithmetic; the `q - (-inf)` and `-inf - (-inf)` cases (IEEE `+inf`
and `NaN`) are mapped to `⊥` and are never exercised by the theorems
below, whose hypotheses keep the subtrahend finite. -/
def bsub : WithBot ℚ → WithBot ℚ → WithBot ℚ
  | ⊥, _ => ⊥
  | (_ : ℚ), ⊥ => ⊥
  | (a : ℚ), (b : ℚ) => ((a - b : ℚ) : WithBot ℚ)

/-- The `r_prev` component of the `state` argument (`r_prev` from the
previous call, or the `None`-state initialization). -/
def state_r (P : CTCPrefixScorer)
    (state : Option ((ℕ → Bool → ℕ → WithBot ℚ) × (ℕ → ℕ → WithBot ℚ))) :
    ℕ → Bool → ℕ → WithBot ℚ :=
  match state with
  | none => r_prev_init P
  | some s => s.1

/-- The `psi_prev` component of the `state` argument (`0.0` when `state`
is `None`). -/
def state_psi
    (state : Option ((ℕ → Bool → ℕ → WithBot ℚ) × (ℕ → ℕ → WithBot ℚ))) :
    ℕ → ℕ → WithBot ℚ :=
  match state with
  | none => fun _ _ => 0
  | some s => s.2

/-- `forward_step(g, state, candidates=None)` (full-vocabulary search; the
partial-search `candidates`/`scoring_table` branch is not modelled, and
the returned state's `scoring_table` component, `None` on this path, is
dropped).  Returns `psi - psi_prev` and the new `(r, psi)` state. -/
def forward_step (lse : List (WithBot ℚ) → WithBot ℚ)
    (P : CTCPrefixScorer) (g : List (List ℕ))
    (state : Option ((ℕ → Bool → ℕ → WithBot ℚ) × (ℕ → ℕ → WithBot ℚ))) :
    (ℕ → ℕ → WithBot ℚ) ×
      ((ℕ → Bool → ℕ → ℕ → WithBot ℚ) × (ℕ → ℕ → WithBot ℚ)) :=
  (fun i c =>
    bsub (psi_final lse P g (state_r P state) i c) (state_psi state i c),
   (rTab lse P g (state_r P state), psi_final lse P g (state_r P state)))

end CTCPrefixScorer

/-! ## Persistence: `_save_literal` / `_load_literal`

Labels are Python literals; the embedding covers string and integer
literals (`PyLit`).  A file is a list of lines, each a `List Char`
(no line produced by `_save_literal` contains a newline: `repr` escapes
them).  `repr` of a string is modelled with Python's quote choice and the
escapes `\\`, `\'`, `\"`, `\n`, `\r`, `\t` (other control characters,
which Python also escapes, only change the file bytes, not the round-trip
behaviour); `ast.literal_eval` is modelled by the matching parser. -/

/-- A Python literal usable as an encoder label: a string or an int. -/
inductive PyLit where
  | int (n : ℤ)
  | str (s : List Char)
  deriving DecidableEq

/-- One escaped character of `repr`, for quote character `q`. -/
def escChar (q c : Char) : List Char :=
  if c = '\\' then ['\\', '\\']
  else if c = q then ['\\', q]
  else if c = '\n' then ['\\', 'n']
  else if c = '\r' then ['\\', 'r']
  else if c = '\t' then ['\\', 't']
  else [c]

/-- A string body quoted with `q` and escaped. -/
def pyQuote (q : Char) (s : List Char) : List Char :=
  q :: s.flatMap (escChar q) ++ [q]

/-- `repr` of a Python string: single quotes, unless the string contains
a single quote and no double quote. -/
def pyReprStr (s : List Char) : List Char :=
  if '\'' ∈ s ∧ '\"' ∉ s then pyQuote '\"' s else pyQuote '\'' s

/-- Digit-accumulating loop of decimal printing (fuel-based; `n + 1`
iterations always suffice). -/
def natCharsGo : ℕ → ℕ → List Char → List Char
  | 0, _, acc => acc
  | fuel + 1, n, acc =>
    if n = 0 then acc
    else natCharsGo fuel (n / 10) (Char.ofNat (48 + n % 10) :: acc)

/-- `str(n)` for a natural number. -/
def natChars (n : ℕ) : List Char :=
  if n = 0 then ['0'] else natCharsGo (n + 1) n []

/-- `repr`/`str` of a Python int. -/
def intChars (n : ℤ) : List Char :=
  if n < 0 then '-' :: natChars (-n).toNat else natChars n.toNat

/-- `repr` of a Python literal. -/
def pyRepr : PyLit → List Char
  | .int n => intChars n
  | .str s => pyReprStr s

/-- Is `c` a decimal digit (codepoints 48–57)? -/
def isDigitChar (c : Char) : Bool :=
  decide (48 ≤ c.toNat) && decide (c.toNat ≤ 57)

/-- The numeric value of a digit character. -/
def digitVal (c : Char) : ℕ := c.toNat - 48

/-- `int(s)` on an unsigned decimal string. -/
def parseNat? (l : List Char) : Option ℕ :=
  if l ≠ [] ∧ l.all isDigitChar then
    some (l.foldl (fun acc c => acc * 10 + digitVal c) 0)
  else none

/-- `int(s)` with an optional leading minus sign. -/
def parseInt? (l : List Char) : Option ℤ :=
  match l with
  | [] => none
  | c :: rest =>
    if c = '-' then (parseNat? rest).map (fun m => -(m : ℤ))
    else (parseNat? (c :: rest)).map (fun m => (m : ℤ))

/-- Decode one backslash escape (the escapes `repr` can emit). -/
def escDecode (e : Char) : Option Char :=
  if e = 'n' then some '\n'
  else if e = 'r' then some '\r'
  else if e = 't' then some '\t'
  else if e = '\\' then some '\\'
  else if e = '\'' then some '\''
  else if e = '\"' then some '\"'
  else none

/-- Parse the remainder of a string literal quoted with `q` (the opening
quote already consumed); the closing quote must end the literal. -/
def unescape (q : Char) : List Char → Option (List Char)
  | [] => none
  | c :: rest =>
    if c = q then if rest = [] then some [] else none
    else if c = '\\' then
      match rest with
      | [] => none
      | e :: rest2 =>
        (escDecode e).bind (fun c2 =>
          (unescape q rest2).map (fun tl => c2 :: tl))
    else (unescape q rest).map (fun tl => c :: tl)

/-- `ast.literal_eval` on the literals `_save_literal` can produce. -/
def pyLiteralEval (l : List Char) : Option PyLit :=
  match l with
  | [] => none
  | c :: rest =>
    if c = '\'' then (unescape '\'' rest).map PyLit.str
    else if c = '\"' then (unescape '\"' rest).map PyLit.str
    else (parseInt? l).map PyLit.int

/-- `CategoricalEncoder.VALUE_SEPARATOR`, `" => "`. -/
def SEPC : List Char := [' ', '=', '>', ' ']

/-- `CategoricalEncoder.EXTRAS_SEPARATOR` (one line of 16 `=`). -/
def EXTRAS_SEPC : List Char := "================".data

/-- `line.split(" => ", maxsplit=1)` when the separator occurs (`none`
models the `ValueError` of unpacking a 1-element split). -/
def splitFirstSep : List Char → Option (List Char × List Char)
  | [] => none
  | c :: rest =>
    if SEPC.isPrefixOf (c :: rest) then some ([], (c :: rest).drop 4)
    else (splitFirstSep rest).map (fun p => (c :: p.1, p.2))

/-- Python's whitespace set for `str.strip()`. -/
def isPySpace (c : Char) : Bool :=
  c = ' ' || c = '\t' || c = '\n' || c = '\r' ||
    c = Char.ofNat 11 || c = Char.ofNat 12

/-- `line.strip()`. -/
def pyStrip (l : List Char) : List Char :=
  ((l.dropWhile isPySpace).reverse.dropWhile isPySpace).reverse

/-- One `label => index` line of the mapping section of the saved file. -/
def entryLine (label : PyLit) (ind : ℕ) : List Char :=
  pyRepr label ++ SEPC ++ natChars ind

/-- One `key => value` line of the extras section of the saved file. -/
def extraLine (kv : PyLit × PyLit) : List Char :=
  pyRepr kv.1 ++ SEPC ++ pyRepr kv.2

/-- `CTCTextEncoder._get_extras()` (through the `TextEncoder` and
`CategoricalEncoder` chain): `starting_index` always, then each special
label that is set. -/
def get_extras (e : CategoricalEncoder PyLit) : List (PyLit × PyLit) :=
  [(.str "starting_index".data, .int e.starting_index)] ++
  (match e.unk_label with
   | some u => [(.str "unk_label".data, u)]
   | none => []) ++
  (match e.bos_label with
   | some u => [(.str "bos_label".data, u)]
   | none => []) ++
  (match e.eos_label with
   | some u => [(.str "eos_label".data, u)]
   | none => []) ++
  (match e.blank_label with
   | some u => [(.str "blank_label".data, u)]
   | none => [])

/-- `_save_literal(path, lab2ind, extras)`: the lines written. -/
def save_literal (lab2ind : AList (fun _ : PyLit => ℕ))
    (extras : List (PyLit × PyLit)) : List (List Char) :=
  (lab2ind.entries.map (fun s => entryLine s.1 s.2)) ++
    [EXTRAS_SEPC] ++ (extras.map extraLine)

/-- `save(path)` on an encoder (`_get_extras` then `_save_literal`). -/
def encoder_save (e : CategoricalEncoder PyLit) : List (List Char) :=
  save_literal e.lab2ind (get_extras e)

/-- Parse one mapping line: strip, split at the first `" => "`, convert
the right part with `int`, evaluate the left as a literal (`none` models
the respective `ValueError`/`SyntaxError`; a negative index is outside
the embedding's `ℕ` index domain, matching the spec's "values unique
non-negative integers"). -/
def parseEntryLine (line : List Char) : Option (PyLit × ℕ) :=
  (splitFirstSep (pyStrip line)).bind (fun p =>
    (parseInt? p.2).bind (fun n =>
      (pyLiteralEval p.1).bind (fun lbl =>
        if n < 0 then none else some (lbl, n.toNat))))

/-- Parse one extras line: strip, split, literal-eval both parts. -/
def parseExtraLine (line : List Char) : Option (PyLit × PyLit) :=
  (splitFirstSep (pyStrip line)).bind (fun p =>
    (pyLiteralEval p.1).bind (fun k =>
      (pyLiteralEval p.2).map (fun v => (k, v))))

/-- The parsing loop over a section's lines: parse each line, failing at
the first line whose parse raises. -/
def optMapM {α β : Type} (f : α → Option β) : List α → Option (List β)
  | [] => some []
  | a :: as => (f a).bind (fun b => (optMapM f as).map (fun bs => b :: bs))

/-- `_load_literal(path)`: mapping lines up to the sentinel (building
both dicts), then extras lines. -/
def load_literal (lines : List (List Char)) :
    Option (AList (fun _ : PyLit => ℕ) × AList (fun _ : ℕ => PyLit) ×
      List (PyLit × PyLit)) :=
  (optMapM parseEntryLine
      (lines.takeWhile (fun l => decide (l ≠ EXTRAS_SEPC)))).bind (fun pairs =>
    let lab2ind := pairs.foldl (fun d p => d.insert p.1 p.2) ∅
    let ind2lab := pairs.foldl (fun d p => d.insert p.2 p.1) ∅
    match lines.dropWhile (fun l => decide (l ≠ EXTRAS_SEPC)) with
    | [] => some (lab2ind, ind2lab, [])
    | _ :: extraLines =>
      (optMapM parseExtraLine extraLines).map
        (fun extras => (lab2ind, ind2lab, extras)))

/-- Python-dict lookup in the parsed extras (last assignment wins). -/
def extrasLookup (extras : List (PyLit × PyLit)) (k : PyLit) :
    Option PyLit :=
  (extras.reverse.find? (fun kv => kv.1 = k)).map Prod.snd

/-- `CTCTextEncoder._set_extras(extras)` (through the class chain):
`extras["starting_index"]` is a mandatory int (a `KeyError` is `none`);
each special label is set only when present. -/
def set_extras (e : CategoricalEncoder PyLit)
    (extras : List (PyLit × PyLit)) : Option (CategoricalEncoder PyLit) :=
  match extrasLookup extras (.str "starting_index".data) with
  | some (.int n) =>
    if n < 0 then none
    else some
      { e with
        starting_index := n.toNat
        unk_label :=
          match extrasLookup extras (.str "unk_label".data) with
          | some v => some v
          | none => e.unk_label
        bos_label :=
          match extrasLookup extras (.str "bos_label".data) with
          | some v => some v
          | none => e.bos_label
        eos_label :=
          match extrasLookup extras (.str "eos_label".data) with
          | some v => some v
          | none => e.eos_label
        blank_label :=
          match extrasLookup extras (.str "blank_label".data) with
          | some v => some v
          | none => e.blank_label }
  | _ => none

/-- `load(path)`: replace both dicts, then `_set_extras`. -/
def encoder_load (e : CategoricalEncoder PyLit)
    (lines : List (List Char)) : Option (CategoricalEncoder PyLit) :=
  (load_literal lines).bind (fun t =>
    set_extras { e with lab2ind := t.1, ind2lab := t.2.1 } t.2.2)

/-- A label whose `repr` does not contain the `" => "` separator (the
amended C5 restricts to these). -/
def SafeLabel (v : PyLit) : Prop :=
  ¬ SEPC <:+: pyRepr v

instance instDecidableSafeLabel (v : PyLit) : Decidable (SafeLabel v) :=
  inferInstanceAs (Decidable (¬ SEPC <:+: pyRepr v))

/-! ## Theorems -/

/-- One element of `occ` that is `≥ i` disappears from the count when the
scan moves from `i` to `i + 1`; this is the termination measure of the
`while` loop in `_next_index`. -/
theorem countP_ge_succ_lt {occ : List ℕ} {i : ℕ} (h : i ∈ occ) :
    occ.countP (fun j => decide (i + 1 ≤ j)) <
      occ.countP (fun j => decide (i ≤ j)) := by
  induction occ with
  | nil => cases h
  | cons a rest ih =>
    rcases List.mem_cons.mp h with heq | hrest
    · subst heq
      rw [List.countP_cons, List.countP_cons]
      have h1 : (if (decide (i + 1 ≤ i)) = true then 1 else 0) = 0 := by simp
      have h2 : (if (decide (i ≤ i)) = true then 1 else 0) = 1 := by simp
      rw [h1, h2]
      have : rest.countP (fun j => decide (i + 1 ≤ j)) ≤
          rest.countP (fun j => decide (i ≤ j)) := by
        apply List.countP_mono_left
        intro x _ hx
        simp only [decide_eq_true_eq] at hx ⊢
        omega
      omega
    · rw [List.countP_cons, List.countP_cons]
      have hle : (if (decide (i + 1 ≤ a)) = true then 1 else 0) ≤
          (if (decide (i ≤ a)) = true then 1 else 0) := by
        by_cases hc : i + 1 ≤ a
        · simp [hc, Nat.le_of_succ_le hc]
        · simp [hc]
      have := ih hrest
      omega

/-- With enough fuel, `nextFreeGo` returns the least non-occupied index
`≥ i`. -/
theorem nextFreeGo_spec (occ : List ℕ) :
    ∀ (fuel i : ℕ), occ.countP (fun j => decide (i ≤ j)) < fuel →
      nextFreeGo occ fuel i ∉ occ ∧ i ≤ nextFreeGo occ fuel i ∧
        ∀ j, i ≤ j → j < nextFreeGo occ fuel i → j ∈ occ := by
  intro fuel
  induction fuel with
  | zero =>
    intro i hlt
    exact absurd hlt (Nat.not_lt_zero _)
  | succ fuel ih =>
    intro i hlt
    rw [nextFreeGo]
    by_cases hmem : i ∈ occ
    · rw [if_pos hmem]
      have hcount : occ.countP (fun j => decide (i + 1 ≤ j)) < fuel := by
        have := countP_ge_succ_lt hmem
        omega
      obtain ⟨h1, h2, h3⟩ := ih (i + 1) hcount
      refine ⟨h1, by omega, ?_⟩
      intro j hij hjlt
      rcases Nat.eq_or_lt_of_le hij with heq | hlt'
      · rwa [heq] at hmem
      · exact h3 j hlt' hjlt
    · rw [if_neg hmem]
      exact ⟨hmem, Nat.le_refl i, fun j hij hjlt => by omega⟩

theorem nextFree_not_mem (occ : List ℕ) (i : ℕ) : nextFree occ i ∉ occ := by
  have hfuel : occ.countP (fun j => decide (i ≤ j)) < occ.length + 1 :=
    Nat.lt_succ_of_le (List.countP_le_length _)
  exact (nextFreeGo_spec occ (occ.length + 1) i hfuel).1

theorem nextFree_ge (occ : List ℕ) (i : ℕ) : i ≤ nextFree occ i := by
  have hfuel : occ.countP (fun j => decide (i ≤ j)) < occ.length + 1 :=
    Nat.lt_succ_of_le (List.countP_le_length _)
  exact (nextFreeGo_spec occ (occ.length + 1) i hfuel).2.1

theorem nextFree_min (occ : List ℕ) (i : ℕ) :
    ∀ j, i ≤ j → j < nextFree occ i → j ∈ occ := by
  have hfuel : occ.countP (fun j => decide (i ≤ j)) < occ.length + 1 :=
    Nat.lt_succ_of_le (List.countP_le_length _)
  exact (nextFreeGo_spec occ (occ.length + 1) i hfuel).2.2

namespace CategoricalEncoder

theorem prePush_of_absent {e : CategoricalEncoder L} {label : L}
    (hInv : Inverse e) (habs : e.lab2ind.lookup label = none) :
    PrePush e label := by
  constructor
  · intro l i _
    exact hInv l i
  · intro i hcontra
    rw [← hInv label i] at hcontra
    rw [habs] at hcontra
    cases hcontra

theorem prePush_of_erase {e : CategoricalEncoder L} {label : L} {old : ℕ}
    (hInv : Inverse e) (hold : e.lab2ind.lookup label = some old) :
    PrePush { e with ind2lab := e.ind2lab.erase old } label := by
  constructor
  · intro l i hne
    simp only
    by_cases hio : i = old
    · subst hio
      rw [AList.lookup_erase]
      constructor
      · intro hl
        have : e.ind2lab.lookup i = some l := (hInv l i).mp hl
        have hlab : e.ind2lab.lookup i = some label := (hInv label i).mp hold
        rw [hlab] at this
        exact absurd (Option.some.inj this).symm hne
      · intro hcontra
        cases hcontra
    · rw [AList.lookup_erase_ne hio]
      exact hInv l i
  · intro i hcontra
    simp only at hcontra
    by_cases hio : i = old
    · subst hio
      rw [AList.lookup_erase] at hcontra
      cases hcontra
    · rw [AList.lookup_erase_ne hio] at hcontra
      rw [← hInv label i] at hcontra
      rw [hold] at hcontra
      exact hio (Option.some.inj hcontra).symm

/-- The index chosen by `_next_index` carries no binding. -/
theorem lookup_next_index (e : CategoricalEncoder L) :
    e.ind2lab.lookup e.next_index = none := by
  rw [AList.lookup_eq_none, AList.mem_keys]
  exact nextFree_not_mem e.ind2lab.keys e.starting_index

theorem inverse_enforcePush {e : CategoricalEncoder L} {label : L}
    {index : ℕ} (h : PrePush e label) :
    Inverse (enforce_label.enforcePush e label index) := by
  obtain ⟨hiff, hnolab⟩ := h
  unfold enforce_label.enforcePush
  cases hsaved : e.ind2lab.lookup index with
  | none =>
    intro l i
    simp only
    by_cases hl : l = label
    · rw [hl, AList.lookup_insert]
      by_cases hi : i = index
      · rw [hi, AList.lookup_insert]
        simp
      · rw [AList.lookup_insert_ne hi]
        constructor
        · intro hc
          exact (hi (Option.some.inj hc).symm).elim
        · intro hc
          exact (hnolab i hc).elim
    · rw [AList.lookup_insert_ne hl]
      by_cases hi : i = index
      · rw [hi, AList.lookup_insert]
        constructor
        · intro hc
          have := (hiff l index hl).mp hc
          rw [hsaved] at this
          cases this
        · intro hc
          exact ((hl (Option.some.inj hc).symm).elim : _)
      · rw [AList.lookup_insert_ne hi]
        exact hiff l i hl
  | some saved =>
    have hsne : saved ≠ label := by
      intro hcontra
      rw [hcontra] at hsaved
      exact hnolab index hsaved
    set e1 : CategoricalEncoder L :=
      { e with
        lab2ind := e.lab2ind.insert label index
        ind2lab := e.ind2lab.insert index label } with he1
    have hni : e1.ind2lab.lookup e1.next_index = none := lookup_next_index e1
    have hni_ne_index : e1.next_index ≠ index := by
      intro hcontra
      rw [hcontra] at hni
      simp [he1, AList.lookup_insert] at hni
    have hni_base : e.ind2lab.lookup e1.next_index = none := by
      have h2 := hni
      simp only [he1] at h2
      rwa [AList.lookup_insert_ne hni_ne_index] at h2
    intro l i
    simp only
    by_cases hl : l = saved
    · rw [hl, AList.lookup_insert]
      by_cases hi : i = e1.next_index
      · rw [hi, AList.lookup_insert]
        simp
      · rw [AList.lookup_insert_ne hi]
        constructor
        · intro hc
          exact (hi (Option.some.inj hc).symm).elim
        · intro hc
          by_cases hii : i = index
          · rw [hii, AList.lookup_insert] at hc
            exact ((hsne (Option.some.inj hc).symm).elim : _)
          · rw [AList.lookup_insert_ne hii] at hc
            have h1 := (hiff saved i hsne).mpr hc
            have h2 := (hiff saved index hsne).mpr hsaved
            rw [h2] at h1
            exact (hii (Option.some.inj h1).symm).elim
    · rw [AList.lookup_insert_ne hl]
      by_cases hlab : l = label
      · rw [hlab, AList.lookup_insert]
        by_cases hi : i = e1.next_index
        · rw [hi, AList.lookup_insert]
          constructor
          · intro hc
            exact (hni_ne_index (Option.some.inj hc).symm).elim
          · intro hc
            exact ((hsne (Option.some.inj hc)).elim : _)
        · rw [AList.lookup_insert_ne hi]
          by_cases hii : i = index
          · rw [hii, AList.lookup_insert]
            simp
          · rw [AList.lookup_insert_ne hii]
            constructor
            · intro hc
              exact (hii (Option.some.inj hc).symm).elim
            · intro hc
              exact (hnolab i hc).elim
      · rw [AList.lookup_insert_ne hlab]
        by_cases hi : i = e1.next_index
        · rw [hi, AList.lookup_insert]
          constructor
          · intro hc
            have := (hiff l e1.next_index hlab).mp hc
            rw [hni_base] at this
            cases this
          · intro hc
            exact ((hl (Option.some.inj hc).symm).elim : _)
        · rw [AList.lookup_insert_ne hi]
          by_cases hii : i = index
          · rw [hii, AList.lookup_insert]
            constructor
            · intro hc
              have := (hiff l index hlab).mp hc
              rw [hsaved] at this
              exact ((hl (Option.some.inj this).symm).elim : _)
            · intro hc
              exact ((hlab (Option.some.inj hc).symm).elim : _)
          · rw [AList.lookup_insert_ne hii]
            exact hiff l i hlab

theorem inverse_enforce_label {e : CategoricalEncoder L} {label : L}
    {index : ℕ} (hInv : Inverse e) :
    Inverse (e.enforce_label label index) := by
  unfold enforce_label
  cases hold : e.lab2ind.lookup label with
  | none => exact inverse_enforcePush (prePush_of_absent hInv hold)
  | some old =>
    by_cases hio : index = old
    · simpa [hio] using hInv
    · simp only [hio, if_false]
      exact inverse_enforcePush (prePush_of_erase hInv hold)

theorem inverse_add_label {e : CategoricalEncoder L} {label : L}
    (hInv : Inverse e) : Inverse (e.add_label label).2 := by
  unfold add_label
  by_cases hmem : label ∈ e.lab2ind
  · simpa [hmem] using hInv
  · simp only [hmem, if_false]
    have habs : e.lab2ind.lookup label = none := AList.lookup_eq_none.mpr hmem
    have hfree : e.ind2lab.lookup e.next_index = none := lookup_next_index e
    intro l i
    simp only
    by_cases hl : l = label
    · subst hl
      rw [AList.lookup_insert]
      by_cases hi : i = e.next_index
      · subst hi
        rw [AList.lookup_insert]
        simp
      · rw [AList.lookup_insert_ne hi]
        constructor
        · intro hcontra
          exact absurd (Option.some.inj hcontra) (fun hc => hi hc.symm)
        · intro hcontra
          have := (hInv l i).mpr hcontra
          rw [habs] at this
          cases this
    · rw [AList.lookup_insert_ne hl]
      by_cases hi : i = e.next_index
      · subst hi
        rw [AList.lookup_insert]
        constructor
        · intro hcontra
          have := (hInv l e.next_index).mp hcontra
          rw [hfree] at this
          cases this
        · intro hcontra
          exact absurd (Option.some.inj hcontra).symm hl
      · rw [AList.lookup_insert_ne hi]
        exact hInv l i

theorem inverse_applyOp {e : CategoricalEncoder L} (op : EncOp L)
    (hInv : Inverse e) : Inverse (e.applyOp op) := by
  cases op with
  | add_label l => exact inverse_add_label hInv
  | ensure_label l =>
    cases h : e.lab2ind.lookup l with
    | none => simpa [applyOp, ensure_label, h] using
        @inverse_add_label L _ e l hInv
    | some i => simpa [applyOp, ensure_label, h] using hInv
  | insert_label l i =>
    unfold applyOp insert_label
    by_cases hmem : l ∈ e.lab2ind
    · simpa [hmem] using hInv
    · simpa [hmem] using @inverse_enforce_label L _ e l i hInv
  | enforce_label l i => exact inverse_enforce_label hInv
  | add_unk l =>
    unfold applyOp add_unk
    exact inverse_add_label (e := { e with unk_label := some l }) hInv

theorem inverse_mkEmpty (s : ℕ) : Inverse (mkEmpty (L := L) s) := by
  intro l i
  simp [mkEmpty]

theorem inverse_runOps {e : CategoricalEncoder L}
    (ops : List (EncOp L)) (hInv : Inverse e) : Inverse (runOps e ops) := by
  induction ops generalizing e with
  | nil => exact hInv
  | cons op rest ih => exact ih (inverse_applyOp op hInv)

/-- Relocation behaviour of `enforce_label.enforcePush` when the target
index is occupied by a different label `m`: the occupant moves to the
least free index `≥ starting_index` of the intermediate state, so in the
result every index in `[starting_index, ni)` is occupied. -/
theorem enforcePush_relocates {e : CategoricalEncoder L} {l m : L} {i : ℕ}
    (hocc : e.ind2lab.lookup i = some m) (hne : m ≠ l) :
    ∃ ni,
      (enforce_label.enforcePush e l i).lab2ind.lookup m = some ni ∧
      (enforce_label.enforcePush e l i).ind2lab.lookup ni = some m ∧
      (enforce_label.enforcePush e l i).lab2ind.lookup l = some i ∧
      e.starting_index ≤ ni ∧
      ∀ k, e.starting_index ≤ k → k < ni →
        k ∈ (enforce_label.enforcePush e l i).ind2lab := by
  unfold enforce_label.enforcePush
  rw [hocc]
  simp only
  set e1 : CategoricalEncoder L :=
    { e with
      lab2ind := e.lab2ind.insert l i
      ind2lab := e.ind2lab.insert i l } with he1
  refine ⟨e1.next_index, ?_, ?_, ?_, ?_, ?_⟩
  · exact AList.lookup_insert _
  · exact AList.lookup_insert _
  · have hni : e1.ind2lab.lookup e1.next_index = none := lookup_next_index e1
    have hni_ne : l ≠ m := fun hc => hne hc.symm
    rw [AList.lookup_insert_ne hni_ne]
    exact AList.lookup_insert _
  · exact nextFree_ge e1.ind2lab.keys e.starting_index
  · intro k hk1 hk2
    have hmem : k ∈ e1.ind2lab.keys :=
      nextFree_min e1.ind2lab.keys e.starting_index k hk1 hk2
    have : k ∈ e1.ind2lab := AList.mem_keys.mpr hmem
    exact (AList.mem_insert _).mpr (Or.inr this)

/-- Relocation behaviour of `enforce_label` from a state satisfying the
bijection invariant. -/
theorem enforce_label_relocates {e : CategoricalEncoder L} {l m : L} {i : ℕ}
    (hInv : Inverse e) (hocc : e.ind2lab.lookup i = some m) (hne : m ≠ l) :
    ∃ ni,
      (e.enforce_label l i).lab2ind.lookup m = some ni ∧
      (e.enforce_label l i).ind2lab.lookup ni = some m ∧
      (e.enforce_label l i).lab2ind.lookup l = some i ∧
      e.starting_index ≤ ni ∧
      ∀ k, e.starting_index ≤ k → k < ni →
        k ∈ (e.enforce_label l i).ind2lab := by
  unfold enforce_label
  cases hold : e.lab2ind.lookup l with
  | none => exact enforcePush_relocates hocc hne
  | some old =>
    have hio : i ≠ old := by
      intro hc
      rw [hc] at hocc
      have := (hInv l old).mp hold
      rw [this] at hocc
      exact hne (Option.some.inj hocc).symm
    have hio2 : ¬ i = old := hio
    simp only [hio2, if_false]
    exact enforcePush_relocates
      (e := { e with ind2lab := e.ind2lab.erase old })
      (by simpa [AList.lookup_erase_ne hio] using hocc) hne

end CategoricalEncoder

open CategoricalEncoder

/-- C2: Over every sequence of mutations (`add_label`, `ensure_label`,
`insert_label`, `enforce_label`, `add_unk`) from an empty encoder,
`lab2ind` and `ind2lab` remain exact inverses (`lab2ind[l] = i` iff
`ind2lab[i] = l`, which yields `ind2lab[lab2ind[l]] = l` and
`lab2ind[ind2lab[i]] = i`); moreover, when `enforce_label` (and hence
`insert_label`) targets an index occupied by a different label, the
displaced occupant is relocated to the next unused integer
`≥ starting_index`: some index `ni ≥ starting_index` such that every
index in `[starting_index, ni)` is occupied afterwards. -/
theorem c2_bijection_invariant_and_relocation :
    (∀ (s : ℕ) (ops : List (EncOp L)),
        Inverse (runOps (mkEmpty s) ops)) ∧
    (∀ (e : CategoricalEncoder L) (l m : L) (i : ℕ),
        Inverse e → e.ind2lab.lookup i = some m → m ≠ l →
        (∃ ni,
          (e.enforce_label l i).lab2ind.lookup m = some ni ∧
          (e.enforce_label l i).ind2lab.lookup ni = some m ∧
          (e.enforce_label l i).lab2ind.lookup l = some i ∧
          e.starting_index ≤ ni ∧
          ∀ k, e.starting_index ≤ k → k < ni →
            k ∈ (e.enforce_label l i).ind2lab) ∧
        (l ∉ e.lab2ind → (e.insert_label l i).2 = e.enforce_label l i)) := by
  constructor
  · intro s ops
    exact inverse_runOps ops (inverse_mkEmpty s)
  · intro e l m i hInv hocc hne
    refine ⟨enforce_label_relocates hInv hocc hne, ?_⟩
    intro habs
    simp [insert_label, habs]

/-- Witness for C2 at a concrete mutation sequence and a concrete
relocation: `enforce_label "c" 0` on the encoder `{a ↦ 0, b ↦ 1}` built
by two `add_label` calls relocates `"a"` to the next free index. -/
theorem c2_bijection_invariant_and_relocation_witness :
    Inverse (runOps (mkEmpty (L := String) 0)
      [.add_label "a", .add_label "b"]) ∧
    (∃ ni,
      ((runOps (mkEmpty (L := String) 0)
          [.add_label "a", .add_label "b"]).enforce_label "c" 0).lab2ind.lookup
          "a" = some ni ∧
      ((runOps (mkEmpty (L := String) 0)
          [.add_label "a", .add_label "b"]).enforce_label "c" 0).ind2lab.lookup
          ni = some "a" ∧
      ((runOps (mkEmpty (L := String) 0)
          [.add_label "a", .add_label "b"]).enforce_label "c" 0).lab2ind.lookup
          "c" = some 0 ∧
      (runOps (mkEmpty (L := String) 0)
          [.add_label "a", .add_label "b"]).starting_index ≤ ni ∧
      ∀ k, (runOps (mkEmpty (L := String) 0)
          [.add_label "a", .add_label "b"]).starting_index ≤ k → k < ni →
        k ∈ ((runOps (mkEmpty (L := String) 0)
          [.add_label "a", .add_label "b"]).enforce_label "c" 0).ind2lab) := by
  constructor
  · exact c2_bijection_invariant_and_relocation.1 0 [.add_label "a", .add_label "b"]
  · exact (c2_bijection_invariant_and_relocation.2
      (runOps (mkEmpty (L := String) 0) [.add_label "a", .add_label "b"])
      "c" "a" 0
      (c2_bijection_invariant_and_relocation.1 0 [.add_label "a", .add_label "b"])
      (by decide) (by decide)).1

/-- C6: `encode_label` on an absent label (a) returns the registered unk
label's index when unk is registered and `allow_unk` is true; (b) errors
with the "explicitly disallowed" message when unk is registered but
`allow_unk` is false; (c) errors with messages distinguishable from (b)'s
when no unk label has been registered; and on a registered label it
returns that label's index without error. -/
theorem c6_encode_label_unknown_behaviour (e : CategoricalEncoder L)
    (lab : L) :
    (∀ u iu, e.lab2ind.lookup lab = none → e.unk_label = some u →
        e.lab2ind.lookup u = some iu →
        e.encode_label lab true = .ok iu) ∧
    (∀ u, e.lab2ind.lookup lab = none → e.unk_label = some u →
        e.encode_label lab false = .error (.unkDisallowed lab)) ∧
    (e.lab2ind.lookup lab = none → e.unk_label = none →
        e.encode_label lab true = .error (.noUnkRegistered lab) ∧
        e.encode_label lab false = .error (.wouldNotEncode lab)) ∧
    (∀ lab2 : L,
        EncodeError.noUnkRegistered lab ≠ EncodeError.unkDisallowed lab2 ∧
        EncodeError.wouldNotEncode lab ≠ EncodeError.unkDisallowed lab2) ∧
    (∀ i, e.lab2ind.lookup lab = some i →
        e.encode_label lab true = .ok i ∧ e.encode_label lab false = .ok i) := by
  refine ⟨?_, ?_, ?_, ?_, ?_⟩
  · intro u iu habs hunk hu
    simp [encode_label, habs, hunk, hu]
  · intro u habs hunk
    simp [encode_label, habs, hunk]
  · intro habs hunk
    constructor <;> simp [encode_label, habs, hunk]
  · intro lab2
    constructor <;> intro hc <;> cases hc
  · intro i hsome
    constructor <;> simp [encode_label, hsome]

/-- Witness for C6 on the concrete encoder `{"<unk>" ↦ 0}` built by
`add_unk`, encoding the never-seen label `"x"`, and on an encoder with no
unk registered. -/
theorem c6_encode_label_unknown_behaviour_witness :
    ((runOps (mkEmpty (L := String) 0) [.add_unk "<unk>"]).encode_label
        "x" true = .ok 0) ∧
    ((runOps (mkEmpty (L := String) 0) [.add_unk "<unk>"]).encode_label
        "x" false = .error (.unkDisallowed "x")) ∧
    ((runOps (mkEmpty (L := String) 0) [.add_label "a"]).encode_label
        "x" true = .error (.noUnkRegistered "x")) ∧
    ((runOps (mkEmpty (L := String) 0) [.add_unk "<unk>"]).encode_label
        "<unk>" true = .ok 0) := by
  refine ⟨?_, ?_, ?_, ?_⟩
  · exact (c6_encode_label_unknown_behaviour
      (runOps (mkEmpty (L := String) 0) [.add_unk "<unk>"]) "x").1
      "<unk>" 0 (by decide) (by decide) (by decide)
  · exact (c6_encode_label_unknown_behaviour
      (runOps (mkEmpty (L := String) 0) [.add_unk "<unk>"]) "x").2.1
      "<unk>" (by decide) (by decide)
  · exact ((c6_encode_label_unknown_behaviour
      (runOps (mkEmpty (L := String) 0) [.add_label "a"]) "x").2.2.1
      (by decide) (by decide)).1
  · exact ((c6_encode_label_unknown_behaviour
      (runOps (mkEmpty (L := String) 0) [.add_unk "<unk>"]) "<unk>").2.2.2.2
      0 (by decide)).1

/-- C10: `add_unk` on an already-registered label raises the
duplicate-label error, but has already set the `unk_label` attribute, so
the failed call leaves the encoder behaving as if an unk label were
registered: the mappings are untouched, `unk_label` is set, and encoding
an unknown label with `allow_unk = True` now returns the existing index of
the given label. -/
theorem c10_add_unk_not_atomic (e : CategoricalEncoder L) (l m : L) (i : ℕ)
    (hl : e.lab2ind.lookup l = some i)
    (hm : e.lab2ind.lookup m = none) :
    (e.add_unk l).1 = none ∧
    (e.add_unk l).2.unk_label = some l ∧
    (e.add_unk l).2.lab2ind = e.lab2ind ∧
    (e.add_unk l).2.ind2lab = e.ind2lab ∧
    (e.add_unk l).2.encode_label m true = .ok i := by
  have hmem : l ∈ e.lab2ind := by
    rw [← AList.lookup_isSome, hl]
    rfl
  refine ⟨?_, ?_, ?_, ?_, ?_⟩
  · simp [add_unk, add_label, hmem]
  · simp [add_unk, add_label, hmem]
  · simp [add_unk, add_label, hmem]
  · simp [add_unk, add_label, hmem]
  · simp [add_unk, add_label, hmem, encode_label, hm, hl]

/-- Witness for C10: `add_unk "a"` on the encoder `{"a" ↦ 0}`. -/
theorem c10_add_unk_not_atomic_witness :
    ((runOps (mkEmpty (L := String) 0) [.add_label "a"]).add_unk "a").1
        = none ∧
    ((runOps (mkEmpty (L := String) 0) [.add_label "a"]).add_unk
        "a").2.unk_label = some "a" ∧
    ((runOps (mkEmpty (L := String) 0) [.add_label "a"]).add_unk
        "a").2.lab2ind
      = (runOps (mkEmpty (L := String) 0) [.add_label "a"]).lab2ind ∧
    ((runOps (mkEmpty (L := String) 0) [.add_label "a"]).add_unk
        "a").2.ind2lab
      = (runOps (mkEmpty (L := String) 0) [.add_label "a"]).ind2lab ∧
    ((runOps (mkEmpty (L := String) 0) [.add_label "a"]).add_unk
        "a").2.encode_label "x" true = .ok 0 :=
  c10_add_unk_not_atomic
    (runOps (mkEmpty (L := String) 0) [.add_label "a"]) "a" "x" 0
    (by decide) (by decide)

/-- C8: on a sequence with no registered-blank element and no adjacent
repeats, `collapse_labels` with `merge_repeats=True` returns the sequence
unchanged, hence applying it twice equals applying it once; and it errors
whenever no blank label has been registered. -/
theorem c8_collapse_labels_idempotent (e : CategoricalEncoder L)
    (x : List L) (b : L) (hb : e.blank_label = some b) (hnb : b ∉ x)
    (hnr : List.Chain' (· ≠ ·) x) :
    e.collapse_labels x true = .ok x ∧
    (e.collapse_labels x true).bind (fun y => e.collapse_labels y true)
      = e.collapse_labels x true ∧
    (∀ (e2 : CategoricalEncoder L) (y : List L) (mr : Bool),
        e2.blank_label = none →
        e2.collapse_labels y mr = .error "Blank label has not been added") := by
  have hok : e.collapse_labels x true = .ok x := by
    unfold collapse_labels
    rw [hb]
    simp only [if_true]
    have hall : ∀ p ∈ x.enum,
        (decide ((p.1 = 0 ∨ x.get? (p.1 - 1) ≠ some p.2) ∧ p.2 ≠ b))
          = true := by
      intro p hp
      obtain ⟨i, v⟩ := p
      rw [decide_eq_true_eq]
      have hget : x.get? i = some v := List.mem_enum_iff_get?.mp hp
      have hmem : v ∈ x := List.get?_mem hget
      refine ⟨?_, fun hc => hnb (hc ▸ hmem)⟩
      cases i with
      | zero => exact Or.inl rfl
      | succ k =>
        right
        obtain ⟨hlt, hgeteq⟩ := List.get?_eq_some.mp hget
        have hklt : k < x.length - 1 := by omega
        have hadj := List.chain'_iff_get.mp hnr k hklt
        show x.get? k ≠ some v
        rw [List.get?_eq_get (by omega : k < x.length)]
        intro hc
        exact hadj ((Option.some.inj hc).trans hgeteq.symm)
    rw [List.filter_eq_self.mpr hall, List.enum_map_snd]
  refine ⟨hok, ?_, ?_⟩
  · rw [hok]
    exact hok
  · intro e2 y mr h2
    simp [collapse_labels, h2]

/-- Witness for C8 at the concrete collapsed sequence `["a", "c", "a"]`
with registered blank `"_"`, and an encoder with no blank registered. -/
theorem c8_collapse_labels_idempotent_witness :
    ({ mkEmpty 0 with blank_label := some "_" }
        : CategoricalEncoder String).collapse_labels ["a", "c", "a"] true
      = .ok ["a", "c", "a"] ∧
    (mkEmpty 0 : CategoricalEncoder String).collapse_labels ["a"] true
      = .error "Blank label has not been added" := by
  have h := c8_collapse_labels_idempotent
    ({ mkEmpty 0 with blank_label := some "_" } : CategoricalEncoder String)
    ["a", "c", "a"] "_" (by decide) (by decide)
    (List.Chain.cons (by decide) (List.Chain.cons (by decide) List.Chain.nil))
  exact ⟨h.1, h.2.2 (mkEmpty 0) ["a"] true (by decide)⟩

/-- The `all(j - i == 1 ...)` adjacency test of `is_continuous` holds
exactly when the list is the consecutive run starting at its head. -/
theorem allAdj_iff_range (a : ℕ) (li : List ℕ) :
    ((a :: li).zip li).all (fun p => decide (p.2 - p.1 = 1)) = true ↔
      a :: li = List.range' a (li.length + 1) := by
  induction li generalizing a with
  | nil => simp [List.range'_one]
  | cons b rest ih =>
    rw [List.zip_cons_cons, List.all_cons, Bool.and_eq_true,
      decide_eq_true_eq, List.range'_succ]
    constructor
    · rintro ⟨h1, h2⟩
      have hb : b = a + 1 := by omega
      have h3 := (ih b).mp h2
      rw [List.cons.injEq]
      exact ⟨rfl, hb ▸ h3⟩
    · intro h
      rw [List.cons.injEq] at h
      obtain ⟨-, h2⟩ := h
      have h3 : b :: rest = List.range' (a + 1) (rest.length + 1) := by
        simpa using h2
      have h4 := h3
      rw [List.range'_succ] at h4
      injection h4 with hb hrest
      refine ⟨by omega, (ih b).mpr ?_⟩
      rw [hb] at h3 ⊢
      exact h3

/-- For a strictly sorted list, the `is_continuous` test
(`s ∈ indices and all adjacent differences are 1`) is equivalent to: `s`
is a member and the members form a convex set of naturals. -/
theorem sorted_run_iff (li : List ℕ) (hsl : li.Sorted (· < ·)) (s : ℕ) :
    (decide (s ∈ li) &&
        (li.zip li.tail).all (fun p => decide (p.2 - p.1 = 1))) = true ↔
      (s ∈ li ∧ ∀ u v k, u ∈ li → v ∈ li → u ≤ k → k ≤ v → k ∈ li) := by
  rw [Bool.and_eq_true, decide_eq_true_eq]
  cases li with
  | nil => simp
  | cons a rest =>
    apply and_congr_right
    intro _
    show ((a :: rest).zip rest).all _ = true ↔ _
    rw [allAdj_iff_range]
    constructor
    · intro heq u v k hu hv huk hkv
      rw [heq] at hu hv ⊢
      rw [List.mem_range'_1] at hu hv ⊢
      omega
    · intro hconv
      have hget : ∀ n (hn : n < (a :: rest).length),
          (a :: rest).get ⟨n, hn⟩ = a + n := by
        intro n
        induction n with
        | zero => intro hn; rfl
        | succ m ihm =>
          intro hn
          have hm : m < (a :: rest).length := by omega
          have hu := ihm hm
          have huv : (a :: rest).get ⟨m, hm⟩ < (a :: rest).get ⟨m + 1, hn⟩ :=
            hsl.rel_get_of_lt (Fin.mk_lt_mk.mpr (Nat.lt_succ_self m))
          by_contra hne
          have hv2 : (a :: rest).get ⟨m, hm⟩ + 2 ≤
              (a :: rest).get ⟨m + 1, hn⟩ := by omega
          have hmid : (a :: rest).get ⟨m, hm⟩ + 1 ∈ a :: rest :=
            hconv ((a :: rest).get ⟨m, hm⟩) ((a :: rest).get ⟨m + 1, hn⟩) _
              (List.get_mem _ _ _) (List.get_mem _ _ _)
              (Nat.le_succ _) (by omega)
          obtain ⟨⟨j, hj⟩, hgj⟩ := List.mem_iff_get.mp hmid
          rcases lt_trichotomy j m with hjm | hjm | hjm
          · have hlt := hsl.rel_get_of_lt
              (show (⟨j, hj⟩ : Fin _) < ⟨m, hm⟩ from Fin.mk_lt_mk.mpr hjm)
            rw [hgj] at hlt
            omega
          · subst hjm
            rw [hgj] at hu
            omega
          · rcases Nat.eq_or_lt_of_le hjm with hje | hjl
            · have : (⟨j, hj⟩ : Fin (a :: rest).length) = ⟨m + 1, hn⟩ :=
                Fin.mk_eq_mk.mpr hje.symm
              rw [this] at hgj
              omega
            · have hlt := hsl.rel_get_of_lt
                (show (⟨m + 1, hn⟩ : Fin _) < ⟨j, hj⟩ from
                  Fin.mk_lt_mk.mpr hjl)
              rw [hgj] at hlt
              omega
      apply List.ext_get (by simp)
      intro n h1 h2
      rw [hget n h1]
      simp [List.get_range']

/-- C4 (amended): `is_continuous()` returns true iff the occupied indices
form an unbroken run of consecutive integers that *contains*
`starting_index` (the run need not start there: the code's own docstring
declares `[0,1,2]` continuous for starting index 1); the claim's two
concrete examples hold as stated. -/
theorem c4_is_continuous_amended :
    (∀ e : CategoricalEncoder L,
        is_continuous e = true ↔
          (e.starting_index ∈ e.ind2lab ∧
           ∀ u v k, u ∈ e.ind2lab → v ∈ e.ind2lab → u ≤ k → k ≤ v →
             k ∈ e.ind2lab)) ∧
    is_continuous (runOps (mkEmpty (L := String) 0)
        [.add_label "a", .add_label "b", .add_label "c"]) = true ∧
    is_continuous ((runOps (mkEmpty (L := String) 0)
        [.add_label "a", .add_label "b", .add_label "c"]).enforce_label
          "b" 5) = false := by
  refine ⟨?_, by decide, by decide⟩
  intro e
  have hperm : (List.insertionSort (· ≤ ·) e.ind2lab.keys).Perm
      e.ind2lab.keys := List.perm_insertionSort _ _
  have hnd : (List.insertionSort (· ≤ ·) e.ind2lab.keys).Nodup :=
    hperm.nodup_iff.mpr (AList.keys_nodup _)
  have hsl : (List.insertionSort (· ≤ ·) e.ind2lab.keys).Sorted (· < ·) :=
    (List.sorted_insertionSort _ _).lt_of_le hnd
  have hm : ∀ k, k ∈ List.insertionSort (· ≤ ·) e.ind2lab.keys ↔
      k ∈ e.ind2lab :=
    fun k => hperm.mem_iff.trans AList.mem_keys.symm
  rw [show is_continuous e =
      (decide (e.starting_index ∈ List.insertionSort (· ≤ ·) e.ind2lab.keys)
        && ((List.insertionSort (· ≤ ·) e.ind2lab.keys).zip
          (List.insertionSort (· ≤ ·) e.ind2lab.keys).tail).all
          (fun p => decide (p.2 - p.1 = 1))) from rfl]
  rw [sorted_run_iff _ hsl e.starting_index]
  simp only [hm]

/-- Witness for C4: from the concrete three-`add_label` encoder, the
amended characterization yields that its starting index is occupied. -/
theorem c4_is_continuous_amended_witness :
    (runOps (mkEmpty (L := String) 0)
        [.add_label "a", .add_label "b", .add_label "c"]).starting_index ∈
      (runOps (mkEmpty (L := String) 0)
        [.add_label "a", .add_label "b", .add_label "c"]).ind2lab :=
  ((c4_is_continuous_amended.1
    (runOps (mkEmpty (L := String) 0)
      [.add_label "a", .add_label "b", .add_label "c"])).mp (by decide)).1

/-- Counterexample to C4 as stated: with `starting_index = 1` and occupied
indices `{0, 1, 2}` (reached by `enforce_label("a", 0)` then two
`add_label` calls), `is_continuous()` returns true although the run of
occupied indices starts at 0, not at `starting_index`. -/
theorem c4_is_continuous_counterexample :
    is_continuous (runOps (mkEmpty (L := String) 1)
        [.enforce_label "a" 0, .add_label "b", .add_label "c"]) = true ∧
    ¬ SpecRunFromStart (runOps (mkEmpty (L := String) 1)
        [.enforce_label "a" 0, .add_label "b", .add_label "c"]) := by
  constructor
  · decide
  · intro h
    have h0 := (h 0).mp (by decide)
    exact absurd h0.1 (by decide)

theorem cons_dedupFromPrev_eq_destutter' {α : Type} [DecidableEq α]
    (t : List α) : ∀ a : α,
    a :: dedupFromPrev a t = List.destutter' (· ≠ ·) a t := by
  induction t with
  | nil => intro a; rfl
  | cons b bs ih =>
    intro a
    rw [dedupFromPrev, List.destutter'_cons]
    by_cases hba : b = a
    · rw [if_pos hba, if_neg (by simpa using hba.symm), hba]
      exact ih a
    · rw [if_neg hba, if_pos (by simpa using Ne.symm hba)]
      rw [← ih b]

theorem enumFrom_filter_dedup {α : Type} [DecidableEq α] (full : List α) :
    ∀ (t : List α) (k : ℕ) (prev : α), 1 ≤ k →
      full.get? (k - 1) = some prev →
      (∀ i, full.get? (k + i) = t.get? i) →
      ((t.enumFrom k).filter (fun p =>
          decide (p.1 = 0 ∨ full.get? (p.1 - 1) ≠ some p.2))).map Prod.snd
        = dedupFromPrev prev t := by
  intro t
  induction t with
  | nil => intro k prev _ _ _; rfl
  | cons b bs ih =>
    intro k prev hk hpred hlink
    have hb : full.get? k = some b := by
      have := hlink 0
      simpa using this
    have hlink2 : ∀ i, full.get? (k + 1 + i) = bs.get? i := by
      intro i
      have := hlink (i + 1)
      have harith : k + (i + 1) = k + 1 + i := by omega
      rw [harith] at this
      simpa using this
    have hpred2 : full.get? (k + 1 - 1) = some b := by simpa using hb
    rw [List.enumFrom_cons, List.filter_cons, dedupFromPrev]
    by_cases hbp : b = prev
    · have hcond : (decide (((k, b).1 : ℕ) = 0 ∨
          full.get? ((k, b).1 - 1) ≠ some (k, b).2)) = false := by
        simp only [decide_eq_false_iff_not, not_or, not_not]
        exact ⟨by omega, by rw [hpred, hbp]⟩
      rw [hcond, if_pos hbp]
      simp only [Bool.false_eq_true, if_false]
      exact ih (k + 1) b (by omega) hpred2 hlink2
    · have hcond : (decide (((k, b).1 : ℕ) = 0 ∨
          full.get? ((k, b).1 - 1) ≠ some (k, b).2)) = true := by
        simp only [decide_eq_true_eq]
        right
        rw [hpred]
        simpa using fun hc => hbp (Option.some.inj hc).symm
      rw [hcond, if_neg hbp]
      simp only [if_true, List.map_cons]
      rw [ih (k + 1) b (by omega) hpred2 hlink2]

/-- The source's first comprehension in `filter_ctc_output` (keep each
element differing from its original predecessor) is exactly one
adjacent-duplicate merge pass. -/
theorem comp_dedup_eq_destutter {α : Type} [DecidableEq α] (l : List α) :
    (l.enum.filter (fun p =>
        decide (p.1 = 0 ∨ l.get? (p.1 - 1) ≠ some p.2))).map Prod.snd
      = l.destutter (· ≠ ·) := by
  cases l with
  | nil => rfl
  | cons a t =>
    rw [List.destutter_cons']
    have henum : (a :: t).enum = (0, a) :: t.enumFrom 1 := rfl
    rw [henum, List.filter_cons]
    have hcond : (decide ((((0 : ℕ), a).1 : ℕ) = 0 ∨
        (a :: t).get? (((0 : ℕ), a).1 - 1) ≠ some ((0 : ℕ), a).2)) = true := by
      simp
    rw [hcond]
    simp only [if_true, List.map_cons]
    rw [enumFrom_filter_dedup (a :: t) t 1 a (by omega) (by rfl)
      (fun i => by rw [Nat.add_comm]; rfl)]
    exact cons_dedupFromPrev_eq_destutter' t a

/-- `filter_ctc_output` implements the CTC collapse rule: its first two
passes together are a single adjacent-merge pass. -/
theorem filter_ctc_output_eq_collapse (l : List ℤ) (b : ℤ) :
    filter_ctc_output l b = ctcCollapse b l := by
  unfold filter_ctc_output ctcCollapse
  rw [comp_dedup_eq_destutter, List.destutter_idem]

theorem get?_zip_eq_some {α β : Type} (l1 : List α) :
    ∀ (l2 : List β) (i : ℕ) (a : α) (b : β),
      l1.get? i = some a → l2.get? i = some b →
      (l1.zip l2).get? i = some (a, b) := by
  induction l1 with
  | nil => intro l2 i a b h1 _; cases h1
  | cons x xs ih =>
    intro l2 i a b h1 h2
    cases l2 with
    | nil => cases h2
    | cons y ys =>
      cases i with
      | zero =>
        rw [List.zip_cons_cons]
        cases h1
        cases h2
        rfl
      | succ j =>
        rw [List.zip_cons_cons]
        exact ih ys j a b h1 h2

/-- C3: per batch element, `ctc_greedy_decode` takes the arg-max at each
of the first `round(relative_length * time)` timesteps (halves rounded to
even, as `torch.round` does), applies the CTC collapse rule (merge
consecutive duplicates, then strip blanks), resolving a negative
`blank_id` from the end of the vocabulary axis; on the spec's concrete
example it returns `[[1], [1]]`. -/
theorem c3_ctc_greedy_decode :
    (∀ (probabilities : List (List (List ℚ))) (seq_lens : List ℚ)
        (blank_id : ℤ) (bi : ℕ) (seq : List (List ℚ)) (len : ℚ),
        probabilities.get? bi = some seq → seq_lens.get? bi = some len →
        (ctc_greedy_decode probabilities seq_lens blank_id).get? bi =
          some (ctcCollapse
            (if blank_id < 0 then (vocab_of probabilities : ℤ) + blank_id
             else blank_id)
            ((seq.take
                (roundHalfEven
                  (len * (batch_max_len_of probabilities : ℚ))).toNat).map
              (fun row => (argmax row : ℤ))))) ∧
    ctc_greedy_decode
        [[[3/10, 7/10], [0, 0]], [[2/10, 8/10], [9/10, 1/10]]]
        [51/100, 1] 0
      = [[1], [1]] := by
  constructor
  · intro probabilities seq_lens blank_id bi seq len hp hl
    have hzip : (probabilities.zip seq_lens).get? bi = some (seq, len) :=
      get?_zip_eq_some probabilities seq_lens bi seq len hp hl
    unfold ctc_greedy_decode
    rw [List.get?_map, hzip, Option.map_some']
    rw [filter_ctc_output_eq_collapse]
  · have h1 : roundHalfEven ((51 / 100 : ℚ) *
        (batch_max_len_of [[[3/10, 7/10], [0, 0]],
          [[2/10, 8/10], [9/10, 1/10]]] : ℕ)) = 1 := by
      have hprod : ((51 / 100 : ℚ) *
          (batch_max_len_of [[[3/10, 7/10], [0, 0]],
            [[2/10, 8/10], [9/10, 1/10]]] : ℕ)) = 51 / 50 := by
        norm_num [batch_max_len_of]
      rw [hprod, roundHalfEven]
      have hfl : ⌊(51 / 50 : ℚ)⌋ = 1 := by
        rw [Int.floor_eq_iff]
        norm_num
      rw [hfl]
      norm_num
    have h2 : roundHalfEven ((1 : ℚ) *
        (batch_max_len_of [[[3/10, 7/10], [0, 0]],
          [[2/10, 8/10], [9/10, 1/10]]] : ℕ)) = 2 := by
      have hprod : ((1 : ℚ) *
          (batch_max_len_of [[[3/10, 7/10], [0, 0]],
            [[2/10, 8/10], [9/10, 1/10]]] : ℕ)) = 2 := by
        norm_num [batch_max_len_of]
      rw [hprod, roundHalfEven]
      have hfl : ⌊(2 : ℚ)⌋ = 2 := by norm_num
      rw [hfl]
      norm_num
    have ha1 : argmax [(3 : ℚ)/10, 7/10] = 1 := by
      rw [argmax, argmaxFrom, if_pos (by norm_num), argmaxFrom]
    have ha2 : argmax [(2 : ℚ)/10, 8/10] = 1 := by
      rw [argmax, argmaxFrom, if_pos (by norm_num), argmaxFrom]
    have ha3 : argmax [(9 : ℚ)/10, 1/10] = 0 := by
      rw [argmax, argmaxFrom, if_neg (by norm_num), argmaxFrom]
    show List.map _ _ = _
    rw [List.zip_cons_cons, List.zip_cons_cons, List.zip_nil_right,
      List.map_cons, List.map_cons, List.map_nil]
    simp only [h1, h2]
    rw [show ((1 : ℤ).toNat) = 1 from rfl, show ((2 : ℤ).toNat) = 2 from rfl]
    simp only [List.take]
    rw [List.map_cons, List.map_nil, List.map_cons, List.map_cons,
      List.map_nil]
    rw [ha1, ha2, ha3]
    decide

/-- Witness for C3 applying the per-element characterization to the first
batch element of the spec's example. -/
theorem c3_ctc_greedy_decode_witness :
    (ctc_greedy_decode
        [[[3/10, 7/10], [0, 0]], [[2/10, 8/10], [9/10, 1/10]]]
        [51/100, 1] 0).get? 0 =
      some (ctcCollapse 0
        ((([[3/10, 7/10], [0, 0]] : List (List ℚ)).take
            (roundHalfEven
              ((51/100 : ℚ) *
                ((batch_max_len_of
                  [[[3/10, 7/10], [0, 0]],
                   [[2/10, 8/10], [9/10, 1/10]]] : ℕ) : ℚ))).toNat).map
          (fun row => (argmax row : ℤ)))) := by
  have h := c3_ctc_greedy_decode.1
    [[[3/10, 7/10], [0, 0]], [[2/10, 8/10], [9/10, 1/10]]]
    [51/100, 1] 0 0 [[3/10, 7/10], [0, 0]] (51/100) rfl rfl
  simpa using h

namespace CTCPrefixScorer

theorem bsub_zero (x : WithBot ℚ) : bsub x 0 = x := by
  induction x using WithBot.recBotCoe with
  | bot => rfl
  | coe a =>
    show ((a - 0 : ℚ) : WithBot ℚ) = a
    rw [sub_zero]

theorem bsub_bot_left (y : WithBot ℚ) : bsub ⊥ y = ⊥ := rfl

/-- The eos column of the returned `psi - psi_prev`. -/
theorem forward_step_ret_eos (lse : List (WithBot ℚ) → WithBot ℚ)
    (P : CTCPrefixScorer) (g : List (List ℕ))
    (state : Option ((ℕ → Bool → ℕ → WithBot ℚ) × (ℕ → ℕ → WithBot ℚ)))
    (i : ℕ) (hne : P.eos_index ≠ P.blank_index) :
    (forward_step lse P g state).1 i P.eos_index =
      bsub
        (r_sum lse (state_r P state) (P.last_frame_index (i / P.beam_size)) i)
        (state_psi state i P.eos_index) := by
  show bsub (psi_final lse P g (state_r P state) i P.eos_index) _ = _
  unfold psi_final
  rw [if_neg hne, if_pos rfl]

/-- The blank column of the returned `psi - psi_prev`. -/
theorem forward_step_ret_blank (lse : List (WithBot ℚ) → WithBot ℚ)
    (P : CTCPrefixScorer) (g : List (List ℕ))
    (state : Option ((ℕ → Bool → ℕ → WithBot ℚ) × (ℕ → ℕ → WithBot ℚ)))
    (i : ℕ) :
    (forward_step lse P g state).1 i P.blank_index = ⊥ := by
  show bsub (psi_final lse P g (state_r P state) i P.blank_index) _ = ⊥
  unfold psi_final
  rw [if_pos rfl]
  rfl

end CTCPrefixScorer

/-- C1: evaluation of the construction-time masking at `blank_index = 1`:
on the padded timestep `t = 1` (valid length 1) the blank channel (index
1) is set to `-inf`, not held at 0 — the masking neutralizes the
hard-coded channel 0 instead, so the claimed behaviour fails whenever
`blank_index ≠ 0`. -/
theorem c1_blank_channel_hardcoded :
    ((CTCPrefixScorer.init (fun _ _ _ => ((5 : ℚ) : WithBot ℚ))
        (fun _ => 1) 2 1 1 2 1 0).2 0 1 1 = ⊥ ∧
     (CTCPrefixScorer.init (fun _ _ _ => ((5 : ℚ) : WithBot ℚ))
        (fun _ => 1) 2 1 1 2 1 0).2 0 1 0 = 0) ∧
    (CTCPrefixScorer.init (fun _ _ _ => ((5 : ℚ) : WithBot ℚ))
        (fun _ => 1) 2 1 1 2 1 0).2 0 1 1 ≠ 0 :=
  ⟨⟨rfl, rfl⟩, by decide⟩

/-- C9: after construction the caller's emission tensor holds, at every
padded timestep, `-inf` in every vocabulary channel except channel 0,
which holds 0; valid timesteps are unchanged; and the tensor is not left
unchanged (shown at a concrete input). -/
theorem c9_init_masks_in_place :
    (∀ (x : ℕ → ℕ → ℕ → WithBot ℚ) (enc_lens : ℕ → ℕ)
        (mel bs bms vs bi ei b t v : ℕ),
      (enc_lens b ≤ t →
        (CTCPrefixScorer.init x enc_lens mel bs bms vs bi ei).2 b t v =
          if v = 0 then 0 else ⊥) ∧
      (t < enc_lens b →
        (CTCPrefixScorer.init x enc_lens mel bs bms vs bi ei).2 b t v =
          x b t v)) ∧
    (CTCPrefixScorer.init (fun _ _ _ => ((5 : ℚ) : WithBot ℚ))
        (fun _ => 1) 2 1 1 2 0 0).2 0 1 1 ≠
      (fun _ _ _ => ((5 : ℚ) : WithBot ℚ)) 0 1 1 := by
  constructor
  · intro x enc_lens mel bs bms vs bi ei b t v
    constructor
    · intro hpad
      have hmask : length_to_mask enc_lens b t = false := by
        simp only [length_to_mask, decide_eq_false_iff_not]
        omega
      show maskEmissions x enc_lens b t v = _
      rw [maskEmissions, hmask]
      simp
    · intro hvalid
      have hmask : length_to_mask enc_lens b t = true := by
        simp only [length_to_mask, decide_eq_true_eq]
        omega
      show maskEmissions x enc_lens b t v = _
      rw [maskEmissions, hmask]
      simp
  · decide

/-- Witness for C9 at a concrete tensor: the padded step is overwritten
(channel 1 to `-inf`) and the valid step is untouched. -/
theorem c9_init_masks_in_place_witness :
    (CTCPrefixScorer.init (fun _ _ _ => ((5 : ℚ) : WithBot ℚ))
        (fun _ => 1) 2 1 1 2 0 0).2 0 1 1 =
      (if (1 : ℕ) = 0 then 0 else (⊥ : WithBot ℚ)) ∧
    (CTCPrefixScorer.init (fun _ _ _ => ((5 : ℚ) : WithBot ℚ))
        (fun _ => 1) 2 1 1 2 0 0).2 0 0 1 =
      (fun _ _ _ => ((5 : ℚ) : WithBot ℚ)) 0 0 1 :=
  ⟨(c9_init_masks_in_place.1 (fun _ _ _ => ((5 : ℚ) : WithBot ℚ))
      (fun _ => 1) 2 1 1 2 0 0 0 1 1).1 (by decide),
   (c9_init_masks_in_place.1 (fun _ _ _ => ((5 : ℚ) : WithBot ℚ))
      (fun _ => 1) 2 1 1 2 0 0 0 0 1).2 (by decide)⟩

/-- C7 (amended): the returned score of the end-of-sequence candidate
equals the log-sum of the non-blank and blank forward probabilities of
the unextended prefix at the hypothesis's final valid timestep **minus
the hypothesis's previous accumulated score `psi_prev`** — on a first
call (`state = None`, `psi_prev = 0`) it equals that log-sum exactly —
and the returned score of the blank candidate is `-inf` (the subtracted
previous score being finite); `eos_index ≠ blank_index` is assumed, since
the blank overwrite runs last. -/
theorem c7_forward_step_eos_blank_amended :
    (∀ (lse : List (WithBot ℚ) → WithBot ℚ) (P : CTCPrefixScorer)
        (g : List (List ℕ))
        (state : Option ((ℕ → Bool → ℕ → WithBot ℚ) × (ℕ → ℕ → WithBot ℚ)))
        (i : ℕ),
      P.eos_index ≠ P.blank_index →
      ((CTCPrefixScorer.forward_step lse P g state).1 i P.eos_index =
        CTCPrefixScorer.bsub
          (CTCPrefixScorer.r_sum lse (CTCPrefixScorer.state_r P state)
            (P.last_frame_index (i / P.beam_size)) i)
          (CTCPrefixScorer.state_psi state i P.eos_index)) ∧
      (CTCPrefixScorer.state_psi state i P.blank_index ≠ ⊥ →
        (CTCPrefixScorer.forward_step lse P g state).1 i P.blank_index
          = ⊥)) ∧
    (∀ (lse : List (WithBot ℚ) → WithBot ℚ) (P : CTCPrefixScorer)
        (g : List (List ℕ)) (i : ℕ),
      P.eos_index ≠ P.blank_index →
      (CTCPrefixScorer.forward_step lse P g none).1 i P.eos_index =
        CTCPrefixScorer.r_sum lse (CTCPrefixScorer.r_prev_init P)
          (P.last_frame_index (i / P.beam_size)) i) := by
  constructor
  · intro lse P g state i hne
    exact ⟨CTCPrefixScorer.forward_step_ret_eos lse P g state i hne,
      fun _ => CTCPrefixScorer.forward_step_ret_blank lse P g state i⟩
  · intro lse P g i hne
    rw [CTCPrefixScorer.forward_step_ret_eos lse P g none i hne]
    exact CTCPrefixScorer.bsub_zero _

/-- Witness for C7 on a concrete scorer with `state = None`: the returned
eos score equals the log-sum of the two forward-probability channels at
the final valid frame. -/
theorem c7_forward_step_eos_blank_amended_witness :
    (CTCPrefixScorer.forward_step (fun l => l.foldr max ⊥)
        (CTCPrefixScorer.init (fun _ _ _ => ((0 : ℚ) : WithBot ℚ))
          (fun _ => 1) 1 1 1 2 0 1).1 [[]] none).1 0
      (CTCPrefixScorer.init (fun _ _ _ => ((0 : ℚ) : WithBot ℚ))
          (fun _ => 1) 1 1 1 2 0 1).1.eos_index =
    CTCPrefixScorer.r_sum (fun l => l.foldr max ⊥)
      (CTCPrefixScorer.r_prev_init
        (CTCPrefixScorer.init (fun _ _ _ => ((0 : ℚ) : WithBot ℚ))
          (fun _ => 1) 1 1 1 2 0 1).1)
      ((CTCPrefixScorer.init (fun _ _ _ => ((0 : ℚ) : WithBot ℚ))
          (fun _ => 1) 1 1 1 2 0 1).1.last_frame_index
        (0 / (CTCPrefixScorer.init (fun _ _ _ => ((0 : ℚ) : WithBot ℚ))
          (fun _ => 1) 1 1 1 2 0 1).1.beam_size)) 0 :=
  c7_forward_step_eos_blank_amended.2 (fun l => l.foldr max ⊥)
    (CTCPrefixScorer.init (fun _ _ _ => ((0 : ℚ) : WithBot ℚ))
      (fun _ => 1) 1 1 1 2 0 1).1 [[]] 0 (by decide)

/-- Counterexample to C7 as stated: on a second call (`psi_prev ≠ 0`) the
returned eos score is *not* the log-sum of the non-blank and blank
forward probabilities at the final valid timestep — the previous score is
subtracted from it. -/
theorem c7_forward_step_eos_counterexample :
    (CTCPrefixScorer.forward_step (fun l => l.foldr max ⊥)
        (CTCPrefixScorer.init (fun _ _ _ => ((0 : ℚ) : WithBot ℚ))
          (fun _ => 1) 1 1 1 2 0 1).1 [[]]
        (some (fun _ _ _ => ((0 : ℚ) : WithBot ℚ),
               fun _ _ => ((1 : ℚ) : WithBot ℚ)))).1 0
      (CTCPrefixScorer.init (fun _ _ _ => ((0 : ℚ) : WithBot ℚ))
          (fun _ => 1) 1 1 1 2 0 1).1.eos_index ≠
    CTCPrefixScorer.r_sum (fun l => l.foldr max ⊥)
      (fun _ _ _ => ((0 : ℚ) : WithBot ℚ))
      ((CTCPrefixScorer.init (fun _ _ _ => ((0 : ℚ) : WithBot ℚ))
          (fun _ => 1) 1 1 1 2 0 1).1.last_frame_index
        (0 / (CTCPrefixScorer.init (fun _ _ _ => ((0 : ℚ) : WithBot ℚ))
          (fun _ => 1) 1 1 1 2 0 1).1.beam_size)) 0 := by
  rw [CTCPrefixScorer.forward_step_ret_eos _ _ _ _ _ (by decide)]
  have hr : ∀ t i, CTCPrefixScorer.r_sum (fun l => l.foldr max ⊥)
      (fun _ _ _ => ((0 : ℚ) : WithBot ℚ)) t i = ((0 : ℚ) : WithBot ℚ) := by
    intro t i
    show max ((0 : ℚ) : WithBot ℚ) (max ((0 : ℚ) : WithBot ℚ) ⊥) = _
    rw [max_eq_left bot_le, max_self]
  rw [CTCPrefixScorer.state_r, CTCPrefixScorer.state_psi]
  rw [hr]
  show ((0 - 1 : ℚ) : WithBot ℚ) ≠ ((0 : ℚ) : WithBot ℚ)
  intro hcontra
  have := WithBot.coe_inj.mp hcontra
  norm_num at this

/-! Round-trip of decimal printing and parsing. -/

theorem char_ofNat_digit_toNat (n : ℕ) (h : n < 10) :
    (Char.ofNat (48 + n)).toNat = 48 + n := by
  have hv : Nat.isValidChar (48 + n) := Or.inl (by omega)
  rw [Char.ofNat, dif_pos hv]
  rfl

theorem isDigitChar_digit (n : ℕ) (h : n < 10) :
    isDigitChar (Char.ofNat (48 + n)) = true := by
  rw [isDigitChar, char_ofNat_digit_toNat n h]
  simp only [Bool.and_eq_true, decide_eq_true_eq]
  omega

theorem digitVal_digit (n : ℕ) (h : n < 10) :
    digitVal (Char.ofNat (48 + n)) = n := by
  rw [digitVal, char_ofNat_digit_toNat n h]
  omega

theorem natCharsGo_eq_digits :
    ∀ (fuel n : ℕ) (acc : List Char), n < 10 ^ fuel →
      natCharsGo fuel n acc =
        ((Nat.digits 10 n).map (fun d => Char.ofNat (48 + d))).reverse ++ acc
  | 0, n, acc => by
    intro h
    interval_cases n
    simp [natCharsGo, Nat.digits_zero]
  | fuel + 1, n, acc => by
    intro h
    rw [natCharsGo]
    by_cases hn : n = 0
    · rw [if_pos hn, hn]
      simp
    · rw [if_neg hn]
      have hdiv : n / 10 < 10 ^ fuel := by
        rw [Nat.div_lt_iff_lt_mul (by norm_num)]
        calc n < 10 ^ (fuel + 1) := h
        _ = 10 ^ fuel * 10 := by ring
      rw [natCharsGo_eq_digits fuel (n / 10) _ hdiv]
      rw [Nat.digits_def' (by norm_num : 1 < 10) (Nat.pos_of_ne_zero hn)]
      simp [List.append_assoc]

theorem natChars_eq_digits (n : ℕ) (hn : n ≠ 0) :
    natChars n =
      ((Nat.digits 10 n).map (fun d => Char.ofNat (48 + d))).reverse := by
  rw [natChars]
  rw [if_neg hn, natCharsGo_eq_digits (n + 1) n []
    (lt_of_lt_of_le (Nat.lt_pow_self (by norm_num) n)
      (Nat.pow_le_pow_right (by norm_num) (Nat.le_succ n)))]
  simp

theorem natChars_all_digits (n : ℕ) :
    ∀ c ∈ natChars n, isDigitChar c = true := by
  by_cases hn : n = 0
  · rw [hn]
    decide
  · rw [natChars_eq_digits n hn]
    intro c hc
    rw [List.mem_reverse, List.mem_map] at hc
    obtain ⟨d, hd, rfl⟩ := hc
    exact isDigitChar_digit d (Nat.digits_lt_base (by norm_num) hd)

theorem natChars_ne_nil (n : ℕ) : natChars n ≠ [] := by
  by_cases hn : n = 0
  · rw [hn]
    decide
  · rw [natChars_eq_digits n hn]
    simp [Nat.digits_ne_nil_iff_ne_zero.mpr hn]

theorem foldl_digits_reverse :
    ∀ (ds : List ℕ) (acc : ℕ), (∀ d ∈ ds, d < 10) →
      ((ds.map (fun d => Char.ofNat (48 + d))).reverse).foldl
          (fun a c => a * 10 + digitVal c) acc =
        acc * 10 ^ ds.length + Nat.ofDigits 10 ds := by
  intro ds
  induction ds with
  | nil =>
    intro acc _
    simp [Nat.ofDigits_nil]
  | cons d rest ih =>
    intro acc hlt
    rw [List.map_cons, List.reverse_cons, List.foldl_append]
    rw [ih acc (fun x hx => hlt x (List.mem_cons_of_mem d hx))]
    simp only [List.foldl_cons, List.foldl_nil]
    rw [digitVal_digit d (hlt d (List.mem_cons_self d rest))]
    rw [Nat.ofDigits_cons, List.length_cons, pow_succ]
    ring

theorem parseNat_natChars (n : ℕ) : parseNat? (natChars n) = some n := by
  by_cases hn : n = 0
  · rw [hn]
    decide
  · rw [parseNat?, if_pos ⟨natChars_ne_nil n, List.all_eq_true.mpr
      (natChars_all_digits n)⟩]
    rw [natChars_eq_digits n hn]
    rw [foldl_digits_reverse (Nat.digits 10 n) 0
      (fun d hd => Nat.digits_lt_base (by norm_num) hd)]
    rw [Nat.ofDigits_digits]
    simp

theorem natChars_head_digit (n : ℕ) :
    ∃ c cs, natChars n = c :: cs ∧ isDigitChar c = true := by
  cases hh : natChars n with
  | nil => exact absurd hh (natChars_ne_nil n)
  | cons c cs =>
    refine ⟨c, cs, rfl, natChars_all_digits n c ?_⟩
    rw [hh]
    exact List.mem_cons_self c cs

theorem parseInt_natChars (n : ℕ) : parseInt? (natChars n) = some (n : ℤ) := by
  obtain ⟨c, cs, hh, hd⟩ := natChars_head_digit n
  rw [hh, parseInt?]
  have hne : ¬ c = '-' := by
    intro hc
    rw [hc] at hd
    exact absurd hd (by decide)
  rw [if_neg hne, ← hh, parseNat_natChars]
  rfl

/-! Round-trip of string `repr` and the literal parser. -/

theorem unescape_cons (q c : Char) (rest : List Char) :
    unescape q (c :: rest) =
      (if c = q then if rest = [] then some [] else none
       else if c = '\\' then
         match rest with
         | [] => none
         | e :: rest2 =>
           (escDecode e).bind (fun c2 =>
             (unescape q rest2).map (fun tl => c2 :: tl))
       else (unescape q rest).map (fun tl => c :: tl)) := by
  rw [unescape.eq_def]

theorem unescape_quote_append (q : Char) (hq : q = '\'' ∨ q = '\"') :
    ∀ s : List Char, unescape q (s.flatMap (escChar q) ++ [q]) = some s := by
  have hbq : ¬ ('\\' : Char) = q := by
    rcases hq with rfl | rfl <;> decide
  intro s
  induction s with
  | nil =>
    show unescape q [q] = some []
    rw [unescape_cons, if_pos rfl, if_pos rfl]
  | cons c cs ih =>
    rw [List.flatMap_cons, List.append_assoc, escChar]
    by_cases h1 : c = '\\'
    · rw [if_pos h1]
      show unescape q ('\\' :: '\\' :: (cs.flatMap (escChar q) ++ [q])) = _
      rw [unescape_cons, if_neg hbq, if_pos rfl]
      show (escDecode '\\').bind (fun c2 =>
        (unescape q (cs.flatMap (escChar q) ++ [q])).map
          (fun tl => c2 :: tl)) = some (c :: cs)
      rw [show escDecode '\\' = some '\\' from by decide]
      show (unescape q (cs.flatMap (escChar q) ++ [q])).map
        (fun tl => '\\' :: tl) = some (c :: cs)
      rw [ih, h1]
      rfl
    · rw [if_neg h1]
      by_cases h2 : c = q
      · rw [if_pos h2]
        show unescape q ('\\' :: q :: (cs.flatMap (escChar q) ++ [q])) = _
        rw [unescape_cons, if_neg hbq, if_pos rfl]
        show (escDecode q).bind (fun c2 =>
          (unescape q (cs.flatMap (escChar q) ++ [q])).map
            (fun tl => c2 :: tl)) = some (c :: cs)
        rw [show escDecode q = some q from by rcases hq with rfl | rfl <;> decide]
        show (unescape q (cs.flatMap (escChar q) ++ [q])).map
          (fun tl => q :: tl) = some (c :: cs)
        rw [ih, h2]
        rfl
      · rw [if_neg h2]
        by_cases h3 : c = '\n'
        · rw [if_pos h3]
          show unescape q ('\\' :: 'n' :: (cs.flatMap (escChar q) ++ [q])) = _
          rw [unescape_cons, if_neg hbq, if_pos rfl]
          show (escDecode 'n').bind (fun c2 =>
            (unescape q (cs.flatMap (escChar q) ++ [q])).map
              (fun tl => c2 :: tl)) = some (c :: cs)
          rw [show escDecode 'n' = some '\n' from by decide]
          show (unescape q (cs.flatMap (escChar q) ++ [q])).map
            (fun tl => '\n' :: tl) = some (c :: cs)
          rw [ih, h3]
          rfl
        · rw [if_neg h3]
          by_cases h4 : c = '\r'
          · rw [if_pos h4]
            show unescape q ('\\' :: 'r' :: (cs.flatMap (escChar q) ++ [q])) = _
            rw [unescape_cons, if_neg hbq, if_pos rfl]
            show (escDecode 'r').bind (fun c2 =>
              (unescape q (cs.flatMap (escChar q) ++ [q])).map
                (fun tl => c2 :: tl)) = some (c :: cs)
            rw [show escDecode 'r' = some '\r' from by decide]
            show (unescape q (cs.flatMap (escChar q) ++ [q])).map
              (fun tl => '\r' :: tl) = some (c :: cs)
            rw [ih, h4]
            rfl
          · rw [if_neg h4]
            by_cases h5 : c = '\t'
            · rw [if_pos h5]
              show unescape q ('\\' :: 't' :: (cs.flatMap (escChar q) ++ [q])) = _
              rw [unescape_cons, if_neg hbq, if_pos rfl]
              show (escDecode 't').bind (fun c2 =>
                (unescape q (cs.flatMap (escChar q) ++ [q])).map
                  (fun tl => c2 :: tl)) = some (c :: cs)
              rw [show escDecode 't' = some '\t' from by decide]
              show (unescape q (cs.flatMap (escChar q) ++ [q])).map
                (fun tl => '\t' :: tl) = some (c :: cs)
              rw [ih, h5]
              rfl
            · rw [if_neg h5]
              show unescape q (c :: (cs.flatMap (escChar q) ++ [q])) = _
              rw [unescape_cons, if_neg h2, if_neg h1]
              show (unescape q (cs.flatMap (escChar q) ++ [q])).map
                (fun tl => c :: tl) = some (c :: cs)
              rw [ih]
              rfl

theorem pyLiteralEval_reprStr (s : List Char) :
    pyLiteralEval (pyReprStr s) = some (.str s) := by
  rw [pyReprStr]
  by_cases hc : '\'' ∈ s ∧ '\"' ∉ s
  · rw [if_pos hc, pyQuote]
    show Option.map PyLit.str
      (unescape '\"' (s.flatMap (escChar '\"') ++ ['\"'])) = _
    rw [unescape_quote_append '\"' (Or.inr rfl) s]
    rfl
  · rw [if_neg hc, pyQuote]
    show Option.map PyLit.str
      (unescape '\'' (s.flatMap (escChar '\'') ++ ['\''])) = _
    rw [unescape_quote_append '\'' (Or.inl rfl) s]
    rfl

theorem pyLiteralEval_repr (v : PyLit) :
    pyLiteralEval (pyRepr v) = some v := by
  cases v with
  | str s => exact pyLiteralEval_reprStr s
  | int n =>
    rw [pyRepr, intChars]
    by_cases hn : n < 0
    · rw [if_pos hn]
      show Option.map PyLit.int (parseInt? ('-' :: natChars (-n).toNat)) = _
      show Option.map PyLit.int
        ((parseNat? (natChars (-n).toNat)).map (fun m => -(m : ℤ))) = _
      rw [parseNat_natChars]
      show some (PyLit.int (-(((-n).toNat : ℕ) : ℤ))) = some (PyLit.int n)
      congr 2
      omega
    · rw [if_neg hn]
      obtain ⟨c, cs, hh, hd⟩ := natChars_head_digit n.toNat
      rw [hh]
      have hq1 : ¬ c = '\'' := by
        intro hc
        rw [hc] at hd
        exact absurd hd (by decide)
      have hq2 : ¬ c = '\"' := by
        intro hc
        rw [hc] at hd
        exact absurd hd (by decide)
      show (if c = '\'' then Option.map PyLit.str (unescape '\'' cs)
        else if c = '\"' then Option.map PyLit.str (unescape '\"' cs)
        else Option.map PyLit.int (parseInt? (c :: cs))) = some (PyLit.int n)
      rw [if_neg hq1, if_neg hq2, ← hh, parseInt_natChars]
      show some (PyLit.int ((n.toNat : ℕ) : ℤ)) = some (PyLit.int n)
      congr 2
      omega

/-! Character classes of the saved lines, `strip` and `split`. -/

theorem mem_of_getLast?_eq {α : Type} {l : List α} {c : α}
    (h : l.getLast? = some c) : c ∈ l := by
  obtain ⟨hne, heq⟩ := List.mem_getLast?_eq_getLast (show c ∈ l.getLast? from h)
  rw [heq]
  exact List.getLast_mem hne

theorem natChars_last_digit (n : ℕ) :
    ∃ c, (natChars n).getLast? = some c ∧ isDigitChar c = true := by
  cases hh : (natChars n).getLast? with
  | none => exact absurd (List.getLast?_eq_none_iff.mp hh) (natChars_ne_nil n)
  | some c =>
    exact ⟨c, rfl, natChars_all_digits n c (mem_of_getLast?_eq hh)⟩

theorem pyRepr_last (v : PyLit) :
    ∃ c, (pyRepr v).getLast? = some c ∧
      (c = '\'' ∨ c = '\"' ∨ isDigitChar c = true) := by
  cases v with
  | str s =>
    rw [pyRepr, pyReprStr]
    by_cases hc : '\'' ∈ s ∧ '\"' ∉ s
    · rw [if_pos hc, pyQuote]
      refine ⟨'\"', ?_, Or.inr (Or.inl rfl)⟩
      rw [show ('\"' :: s.flatMap (escChar '\"') ++ ['\"']) =
        ('\"' :: s.flatMap (escChar '\"')) ++ ['\"'] from rfl]
      exact List.getLast?_concat _
    · rw [if_neg hc, pyQuote]
      refine ⟨'\'', ?_, Or.inl rfl⟩
      rw [show ('\'' :: s.flatMap (escChar '\'') ++ ['\'']) =
        ('\'' :: s.flatMap (escChar '\'')) ++ ['\''] from rfl]
      exact List.getLast?_concat _
  | int n =>
    rw [pyRepr, intChars]
    by_cases hn : n < 0
    · rw [if_pos hn]
      obtain ⟨c, hc, hd⟩ := natChars_last_digit (-n).toNat
      refine ⟨c, ?_, Or.inr (Or.inr hd)⟩
      cases hh : natChars (-n).toNat with
      | nil => exact absurd hh (natChars_ne_nil _)
      | cons x xs =>
        rw [hh] at hc
        rw [List.getLast?_cons_cons]
        exact hc
    · rw [if_neg hn]
      obtain ⟨c, hc, hd⟩ := natChars_last_digit n.toNat
      exact ⟨c, hc, Or.inr (Or.inr hd)⟩

theorem pyRepr_head (v : PyLit) :
    ∃ c cs, pyRepr v = c :: cs ∧
      (c = '\'' ∨ c = '\"' ∨ c = '-' ∨ isDigitChar c = true) := by
  cases v with
  | str s =>
    rw [pyRepr, pyReprStr]
    by_cases hc : '\'' ∈ s ∧ '\"' ∉ s
    · rw [if_pos hc, pyQuote]
      exact ⟨'\"', _, rfl, Or.inr (Or.inl rfl)⟩
    · rw [if_neg hc, pyQuote]
      exact ⟨'\'', _, rfl, Or.inl rfl⟩
  | int n =>
    rw [pyRepr, intChars]
    by_cases hn : n < 0
    · rw [if_pos hn]
      exact ⟨'-', _, rfl, Or.inr (Or.inr (Or.inl rfl))⟩
    · rw [if_neg hn]
      obtain ⟨c, cs, hh, hd⟩ := natChars_head_digit n.toNat
      exact ⟨c, cs, hh, Or.inr (Or.inr (Or.inr hd))⟩

/-- A `repr` head or last character is never whitespace nor one of the
separator's characters. -/
theorem reprChar_props (c : Char)
    (h : c = '\'' ∨ c = '\"' ∨ c = '-' ∨ isDigitChar c = true) :
    isPySpace c = false ∧ c ≠ ' ' ∧ c ≠ '=' ∧ c ≠ '>' := by
  have hne : ∀ d : Char, isDigitChar d = true →
      isPySpace d = false ∧ d ≠ ' ' ∧ d ≠ '=' ∧ d ≠ '>' := by
    intro d hd
    refine ⟨?_, ?_, ?_, ?_⟩
    · by_contra hsp
      rw [Bool.not_eq_false] at hsp
      rw [isPySpace] at hsp
      simp only [Bool.or_eq_true, decide_eq_true_eq] at hsp
      rcases hsp with ((((h1 | h1) | h1) | h1) | h1) | h1 <;>
        (rw [h1] at hd; exact absurd hd (by decide))
    · intro h1
      rw [h1] at hd
      exact absurd hd (by decide)
    · intro h1
      rw [h1] at hd
      exact absurd hd (by decide)
    · intro h1
      rw [h1] at hd
      exact absurd hd (by decide)
  rcases h with rfl | rfl | rfl | hd
  · exact ⟨by decide, by decide, by decide, by decide⟩
  · exact ⟨by decide, by decide, by decide, by decide⟩
  · exact ⟨by decide, by decide, by decide, by decide⟩
  · exact hne c hd

theorem pyStrip_eq_self (l : List Char)
    (h1 : ∀ c cs, l = c :: cs → isPySpace c = false)
    (h2 : ∀ c, l.getLast? = some c → isPySpace c = false) :
    pyStrip l = l := by
  cases l with
  | nil => rfl
  | cons c cs =>
    rw [pyStrip, List.dropWhile_cons, h1 c cs rfl]
    simp only [Bool.false_eq_true, if_false]
    cases hrev : (c :: cs).reverse with
    | nil => exact absurd hrev (by simp)
    | cons d t =>
      have hd : isPySpace d = false := by
        apply h2
        rw [← List.head?_reverse, hrev]
        rfl
      rw [List.dropWhile_cons, hd]
      simp only [Bool.false_eq_true, if_false]
      have hrr : (d :: t).reverse = ((c :: cs).reverse).reverse := by
        rw [hrev]
      rw [hrr, List.reverse_reverse]

theorem splitFirstSep_append (b : List Char) :
    ∀ a : List Char, ¬ SEPC <:+: a →
      (∀ c, a.getLast? = some c → c ≠ ' ' ∧ c ≠ '=' ∧ c ≠ '>') →
      splitFirstSep (a ++ SEPC ++ b) = some (a, b) := by
  intro a
  induction a with
  | nil =>
    intro _ _
    show splitFirstSep (' ' :: '=' :: '>' :: ' ' :: b) = some ([], b)
    rw [splitFirstSep]
    rw [if_pos (by
      rw [List.isPrefixOf_iff_prefix]
      exact ⟨b, rfl⟩)]
    rfl
  | cons c a' ih =>
    intro hin hlast
    have hnp : ¬ (SEPC.isPrefixOf (c :: (a' ++ (SEPC ++ b)))) = true := by
      intro hpre
      rw [List.isPrefixOf_iff_prefix] at hpre
      obtain ⟨t, ht⟩ := hpre
      rcases a' with _ | ⟨x, a2⟩
      · -- a = [c]
        injection ht with hc _
        exact absurd hc.symm (hlast c rfl).1
      · rcases a2 with _ | ⟨y, a3⟩
        · -- a = [c, x]
          injection ht with hc ht
          injection ht with hx _
          have : (c :: [x]).getLast? = some x := rfl
          exact absurd hx.symm (hlast x this).2.1
        · rcases a3 with _ | ⟨z, a4⟩
          · -- a = [c, x, y]
            injection ht with hc ht
            injection ht with hx ht
            injection ht with hy _
            have : (c :: [x, y]).getLast? = some y := rfl
            exact absurd hy.symm (hlast y this).2.2
          · -- a = c :: x :: y :: z :: a4 : SEPC is a prefix of a
            injection ht with hc ht
            injection ht with hx ht
            injection ht with hy ht
            injection ht with hz _
            apply hin
            refine ⟨[], a4, ?_⟩
            rw [← hc, ← hx, ← hy, ← hz]
            rfl
    rw [show ((c :: a') ++ SEPC ++ b) = c :: (a' ++ (SEPC ++ b)) from by
      simp]
    rw [splitFirstSep, if_neg hnp]
    have hin' : ¬ SEPC <:+: a' := by
      intro hc
      exact hin (List.infix_cons hc)
    have hlast' : ∀ d, a'.getLast? = some d →
        d ≠ ' ' ∧ d ≠ '=' ∧ d ≠ '>' := by
      intro d hd
      apply hlast
      cases a' with
      | nil => cases hd
      | cons x a2 =>
        rw [List.getLast?_cons_cons]
        exact hd
    rw [← List.append_assoc, ih hin' hlast']
    rfl

/-! Round-trip of the saved lines. -/

theorem pyRepr_last_cond (v : PyLit) :
    ∀ c, (pyRepr v).getLast? = some c → c ≠ ' ' ∧ c ≠ '=' ∧ c ≠ '>' := by
  intro c hc
  obtain ⟨d, hd, hprop⟩ := pyRepr_last v
  rw [hd] at hc
  injection hc with hc
  have : d = '\'' ∨ d = '\"' ∨ d = '-' ∨ isDigitChar d = true := by
    rcases hprop with h | h | h
    · exact Or.inl h
    · exact Or.inr (Or.inl h)
    · exact Or.inr (Or.inr (Or.inr h))
  rw [← hc]
  exact (reprChar_props d this).2

theorem pyRepr_last_nospace (v : PyLit) :
    ∀ c, (pyRepr v).getLast? = some c → isPySpace c = false := by
  intro c hc
  obtain ⟨d, hd, hprop⟩ := pyRepr_last v
  rw [hd] at hc
  injection hc with hc
  have : d = '\'' ∨ d = '\"' ∨ d = '-' ∨ isDigitChar d = true := by
    rcases hprop with h | h | h
    · exact Or.inl h
    · exact Or.inr (Or.inl h)
    · exact Or.inr (Or.inr (Or.inr h))
  rw [← hc]
  exact (reprChar_props d this).1

theorem sepLine_strip (a b : List Char)
    (ha : ∀ c cs, a = c :: cs → isPySpace c = false)
    (hb : ∀ c, b.getLast? = some c → isPySpace c = false)
    (hane : a ≠ []) (hbne : b ≠ []) :
    pyStrip (a ++ SEPC ++ b) = a ++ SEPC ++ b := by
  apply pyStrip_eq_self
  · intro c cs hc
    cases a with
    | nil => exact absurd rfl hane
    | cons x xs =>
      rw [show ((x :: xs) ++ SEPC ++ b) = x :: (xs ++ SEPC ++ b) from by
        simp] at hc
      injection hc with h1 _
      rw [← h1]
      exact ha x xs rfl
  · intro c hc
    rw [List.getLast?_append_of_ne_nil _ hbne] at hc
    exact hb c hc

theorem pyRepr_ne_nil (v : PyLit) : pyRepr v ≠ [] := by
  obtain ⟨c, cs, hc, _⟩ := pyRepr_head v
  rw [hc]
  exact List.cons_ne_nil c cs

theorem pyRepr_head_nospace (v : PyLit) :
    ∀ c cs, pyRepr v = c :: cs → isPySpace c = false := by
  intro c cs hc
  obtain ⟨d, ds, hd, hprop⟩ := pyRepr_head v
  rw [hd] at hc
  injection hc with h1 _
  rw [← h1]
  exact (reprChar_props d hprop).1

theorem natChars_last_nospace (n : ℕ) :
    ∀ c, (natChars n).getLast? = some c → isPySpace c = false := by
  intro c hc
  obtain ⟨d, hd, hdig⟩ := natChars_last_digit n
  rw [hd] at hc
  injection hc with hc
  rw [← hc]
  exact (reprChar_props d (Or.inr (Or.inr (Or.inr hdig)))).1

theorem parseEntryLine_entryLine (lbl : PyLit) (i : ℕ)
    (h : SafeLabel lbl) :
    parseEntryLine (entryLine lbl i) = some (lbl, i) := by
  rw [parseEntryLine, entryLine]
  rw [sepLine_strip _ _ (pyRepr_head_nospace lbl)
    (natChars_last_nospace i) (pyRepr_ne_nil lbl) (natChars_ne_nil i)]
  rw [splitFirstSep_append (natChars i) (pyRepr lbl) h
    (pyRepr_last_cond lbl)]
  show (parseInt? (natChars i)).bind
    (fun n => (pyLiteralEval (pyRepr lbl)).bind
      (fun l => if n < 0 then none else some (l, n.toNat))) = some (lbl, i)
  rw [parseInt_natChars, pyLiteralEval_repr]
  show (if (i : ℤ) < 0 then none
    else some (lbl, ((i : ℤ)).toNat)) = some (lbl, i)
  rw [if_neg (by omega), Int.toNat_natCast]

theorem parseExtraLine_extraLine (kv : PyLit × PyLit)
    (h : SafeLabel kv.1) :
    parseExtraLine (extraLine kv) = some kv := by
  rw [parseExtraLine, extraLine]
  rw [sepLine_strip _ _ (pyRepr_head_nospace kv.1)
    (pyRepr_last_nospace kv.2) (pyRepr_ne_nil kv.1) (pyRepr_ne_nil kv.2)]
  rw [splitFirstSep_append (pyRepr kv.2) (pyRepr kv.1) h
    (pyRepr_last_cond kv.1)]
  show (pyLiteralEval (pyRepr kv.1)).bind
    (fun k => (pyLiteralEval (pyRepr kv.2)).map (fun v => (k, v))) =
      some kv
  rw [pyLiteralEval_repr, pyLiteralEval_repr]
  rfl

theorem optMapM_entry_lines (l : List ((_ : PyLit) × ℕ))
    (h : ∀ p ∈ l, SafeLabel p.1) :
    optMapM parseEntryLine (l.map (fun s => entryLine s.1 s.2)) =
      some (l.map (fun s => (s.1, s.2))) := by
  induction l with
  | nil => rfl
  | cons p t ih =>
    rw [List.map_cons, optMapM,
      parseEntryLine_entryLine p.1 p.2 (h p (List.mem_cons_self p t)),
      ih (fun q hq => h q (List.mem_cons_of_mem p hq))]
    rfl

theorem optMapM_extra_lines (l : List (PyLit × PyLit))
    (h : ∀ kv ∈ l, SafeLabel kv.1) :
    optMapM parseExtraLine (l.map extraLine) = some l := by
  induction l with
  | nil => rfl
  | cons p t ih =>
    rw [List.map_cons, optMapM,
      parseExtraLine_extraLine p (h p (List.mem_cons_self p t)),
      ih (fun q hq => h q (List.mem_cons_of_mem p hq))]
    rfl

theorem takeWhile_append_all {α : Type} (p : α → Bool) (b : List α) :
    ∀ a : List α, (∀ x ∈ a, p x = true) →
      (a ++ b).takeWhile p = a ++ b.takeWhile p := by
  intro a
  induction a with
  | nil => intro _; rfl
  | cons x t ih =>
    intro h
    rw [List.cons_append, List.takeWhile_cons,
      h x (List.mem_cons_self x t)]
    rw [ih (fun y hy => h y (List.mem_cons_of_mem x hy))]
    rfl

theorem dropWhile_append_all {α : Type} (p : α → Bool) (b : List α) :
    ∀ a : List α, (∀ x ∈ a, p x = true) →
      (a ++ b).dropWhile p = b.dropWhile p := by
  intro a
  induction a with
  | nil => intro _; rfl
  | cons x t ih =>
    intro h
    rw [List.cons_append, List.dropWhile_cons,
      h x (List.mem_cons_self x t)]
    rw [ih (fun y hy => h y (List.mem_cons_of_mem x hy))]
    rfl

theorem entryLine_ne_sentinel (lbl : PyLit) (i : ℕ) :
    entryLine lbl i ≠ EXTRAS_SEPC := by
  obtain ⟨c, cs, hh, hp⟩ := pyRepr_head lbl
  rw [entryLine, hh]
  intro hc
  rw [show ((c :: cs) ++ SEPC ++ natChars i) =
    c :: (cs ++ SEPC ++ natChars i) from by simp] at hc
  rw [show EXTRAS_SEPC = '=' :: "===============".data from rfl] at hc
  injection hc with h1 _
  exact (reprChar_props c hp).2.2.1 h1

theorem foldl_insert_lookup_not_mem (l : List (PyLit × ℕ)) :
    ∀ (d : AList (fun _ : PyLit => ℕ)) (k : PyLit),
      k ∉ l.map Prod.fst →
      (l.foldl (fun d p => d.insert p.1 p.2) d).lookup k = d.lookup k := by
  induction l with
  | nil => intro d k _; rfl
  | cons p t ih =>
    intro d k hk
    rw [List.map_cons, List.mem_cons] at hk
    push_neg at hk
    rw [List.foldl_cons, ih _ k hk.2]
    exact AList.lookup_insert_ne hk.1

theorem foldl_insert_lookup_mem (l : List (PyLit × ℕ)) :
    ∀ (d : AList (fun _ : PyLit => ℕ)) (k : PyLit) (v : ℕ),
      (k, v) ∈ l → (l.map Prod.fst).Nodup →
      (l.foldl (fun d p => d.insert p.1 p.2) d).lookup k = some v := by
  induction l with
  | nil => intro _ _ _ hmem _; cases hmem
  | cons p t ih =>
    intro d k v hmem hnd
    rw [List.map_cons, List.nodup_cons] at hnd
    rw [List.foldl_cons]
    rcases List.mem_cons.mp hmem with heq | hmem'
    · have hk1 : k = p.1 := by rw [← heq]
      have hknot : k ∉ t.map Prod.fst := by
        rw [hk1]
        exact hnd.1
      rw [foldl_insert_lookup_not_mem t _ k hknot, hk1]
      have hv : p = (p.1, v) := by
        rw [← hk1, ← heq]
      rw [show (d.insert p.1 p.2) = d.insert p.1 v from by rw [hv]]
      exact AList.lookup_insert d
    · exact ih _ k v hmem' hnd.2

theorem loaded_lab2ind_lookup (e : CategoricalEncoder PyLit) (k : PyLit) :
    ((e.lab2ind.entries.map
        (fun s : (_ : PyLit) × ℕ => ((s.1, s.2) : PyLit × ℕ))).foldl
        (fun d p => d.insert p.1 p.2)
        (∅ : AList (fun _ : PyLit => ℕ))).lookup k =
      e.lab2ind.lookup k := by
  have hkeys : (e.lab2ind.entries.map
      (fun s : (_ : PyLit) × ℕ => ((s.1, s.2) : PyLit × ℕ))).map Prod.fst =
      e.lab2ind.entries.map Sigma.fst := by
    rw [List.map_map]
    rfl
  cases hk : e.lab2ind.lookup k with
  | none =>
    rw [foldl_insert_lookup_not_mem]
    · rfl
    · rw [hkeys]
      intro hmem
      exact (AList.lookup_eq_none.mp hk) (AList.mem_keys.mp hmem)
  | some v =>
    apply foldl_insert_lookup_mem
    · have hentry : (⟨k, v⟩ : (_ : PyLit) × ℕ) ∈ e.lab2ind.entries :=
        AList.mem_lookup_iff.mp (by rw [hk]; rfl)
      exact List.mem_map.mpr ⟨⟨k, v⟩, hentry, rfl⟩
    · rw [hkeys]
      exact e.lab2ind.keys_nodup

theorem get_extras_key_safe (e : CategoricalEncoder PyLit) :
    ∀ kv ∈ get_extras e, SafeLabel kv.1 := by
  intro kv hkv
  rw [get_extras] at hkv
  have hone : ∀ k u : PyLit, kv ∈ [(k, u)] → kv.1 = k := by
    intro k u h
    rw [List.mem_singleton] at h
    rw [h]
  have hopt : ∀ (o : Option PyLit) (k : PyLit),
      kv ∈ (match o with
        | some u => [((k, u) : PyLit × PyLit)]
        | none => []) → kv.1 = k := by
    intro o k h
    cases o with
    | none => cases h
    | some u => exact hone k u h
  have hk : kv.1 = .str "starting_index".data ∨
      kv.1 = .str "unk_label".data ∨ kv.1 = .str "bos_label".data ∨
      kv.1 = .str "eos_label".data ∨ kv.1 = .str "blank_label".data := by
    rcases List.mem_append.mp hkv with h | h
    · rcases List.mem_append.mp h with h | h
      · rcases List.mem_append.mp h with h | h
        · rcases List.mem_append.mp h with h | h
          · exact Or.inl (hone _ _ h)
          · exact Or.inr (Or.inl (hopt _ _ h))
        · exact Or.inr (Or.inr (Or.inl (hopt _ _ h)))
      · exact Or.inr (Or.inr (Or.inr (Or.inl (hopt _ _ h))))
    · exact Or.inr (Or.inr (Or.inr (Or.inr (hopt _ _ h))))
  rcases hk with h | h | h | h | h <;> rw [h] <;> decide

theorem set_extras_get_extras (e e0 : CategoricalEncoder PyLit)
    (h1 : e0.unk_label = none) (h2 : e0.bos_label = none)
    (h3 : e0.eos_label = none) (h4 : e0.blank_label = none) :
    set_extras e0 (get_extras e) = some
      { e0 with
        starting_index := e.starting_index,
        unk_label := e.unk_label, bos_label := e.bos_label,
        eos_label := e.eos_label, blank_label := e.blank_label } := by
  have hnn : ¬ ((e.starting_index : ℤ) < 0) := by omega
  cases hu : e.unk_label <;> cases hb : e.bos_label <;>
    cases he : e.eos_label <;> cases hbl : e.blank_label <;>
    simp +decide [set_extras, get_extras, extrasLookup, hu, hb, he, hbl,
      h1, h2, h3, h4, hnn, Int.toNat_natCast, List.find?]

theorem encoder_load_of (e : CategoricalEncoder PyLit)
    (lines : List (List Char)) (F1 : AList (fun _ : PyLit => ℕ))
    (F2 : AList (fun _ : ℕ => PyLit))
    (hl : load_literal lines = some (F1, F2, get_extras e)) :
    encoder_load (mkEmpty 0) lines = some
      ⟨F1, F2, e.starting_index, e.unk_label, e.bos_label,
        e.eos_label, e.blank_label⟩ := by
  rw [encoder_load, hl, Option.some_bind]
  exact set_extras_get_extras e ⟨F1, F2, 0, none, none, none, none⟩
    rfl rfl rfl rfl

/-- Claim C5, amended: `save(path)` followed by `load(path)` on a fresh
encoder restores the label→index mapping, `starting_index` and every
special-label registration, PROVIDED every registered label's `repr`
avoids the `" => "` value separator.  (Without that proviso the
round-trip fails: see the counterexample, where the saved entry line
splits inside the label's own `repr` and the load raises.) -/
theorem c5_save_load_roundtrip_amended (e : CategoricalEncoder PyLit)
    (hsafe : ∀ p ∈ e.lab2ind.entries, SafeLabel p.1) :
    ∃ e2, encoder_load (mkEmpty 0) (encoder_save e) = some e2 ∧
      (∀ l, e2.lab2ind.lookup l = e.lab2ind.lookup l) ∧
      e2.starting_index = e.starting_index ∧
      e2.unk_label = e.unk_label ∧
      e2.bos_label = e.bos_label ∧
      e2.eos_label = e.eos_label ∧
      e2.blank_label = e.blank_label := by
  have hptrue : ∀ x ∈ e.lab2ind.entries.map (fun s => entryLine s.1 s.2),
      decide (x ≠ EXTRAS_SEPC) = true := by
    intro x hx
    rcases List.mem_map.mp hx with ⟨s, _, hxeq⟩
    rw [← hxeq]
    exact decide_eq_true (entryLine_ne_sentinel s.1 s.2)
  have hdecf : decide (EXTRAS_SEPC ≠ EXTRAS_SEPC) = false := by decide
  have htail0 : (EXTRAS_SEPC :: (get_extras e).map extraLine).takeWhile
      (fun l => decide (l ≠ EXTRAS_SEPC)) = [] := by
    rw [List.takeWhile_cons, hdecf]
    rfl
  have htail1 : (EXTRAS_SEPC :: (get_extras e).map extraLine).dropWhile
      (fun l => decide (l ≠ EXTRAS_SEPC)) =
      EXTRAS_SEPC :: (get_extras e).map extraLine := by
    rw [List.dropWhile_cons, hdecf]
    rfl
  have htake : (encoder_save e).takeWhile
      (fun l => decide (l ≠ EXTRAS_SEPC)) =
      e.lab2ind.entries.map (fun s => entryLine s.1 s.2) := by
    rw [encoder_save, save_literal, List.append_assoc,
      List.singleton_append]
    rw [takeWhile_append_all _ _ _ hptrue, htail0, List.append_nil]
  have hdrop : (encoder_save e).dropWhile
      (fun l => decide (l ≠ EXTRAS_SEPC)) =
      EXTRAS_SEPC :: (get_extras e).map extraLine := by
    rw [encoder_save, save_literal, List.append_assoc,
      List.singleton_append]
    rw [dropWhile_append_all _ _ _ hptrue, htail1]
  have hentries := optMapM_entry_lines e.lab2ind.entries hsafe
  have hextras := optMapM_extra_lines (get_extras e) (get_extras_key_safe e)
  have hload : load_literal (encoder_save e) = some
      ((e.lab2ind.entries.map
          (fun s : (_ : PyLit) × ℕ => ((s.1, s.2) : PyLit × ℕ))).foldl
          (fun d p => d.insert p.1 p.2) (∅ : AList (fun _ : PyLit => ℕ)),
       (e.lab2ind.entries.map
          (fun s : (_ : PyLit) × ℕ => ((s.1, s.2) : PyLit × ℕ))).foldl
          (fun d p => d.insert p.2 p.1) (∅ : AList (fun _ : ℕ => PyLit)),
       get_extras e) := by
    simp only [load_literal, htake, hdrop, hentries, hextras,
      Option.some_bind, Option.map_some']
  exact ⟨_, encoder_load_of e _ _ _ hload,
    fun l => loaded_lab2ind_lookup e l, rfl, rfl, rfl, rfl, rfl⟩

/-- Witness for C5 on a concrete one-label encoder: the safety
hypothesis holds and the saved file loads back to the same mapping. -/
theorem c5_save_load_roundtrip_amended_witness :
    (∀ p ∈ ((mkEmpty 0 : CategoricalEncoder PyLit).add_label
        (.str ['a'])).2.lab2ind.entries, SafeLabel p.1) ∧
    (∃ e2, encoder_load (mkEmpty 0)
        (encoder_save ((mkEmpty 0 : CategoricalEncoder PyLit).add_label
          (.str ['a'])).2) = some e2 ∧
      (∀ l, e2.lab2ind.lookup l =
        ((mkEmpty 0 : CategoricalEncoder PyLit).add_label
          (.str ['a'])).2.lab2ind.lookup l) ∧
      e2.starting_index = ((mkEmpty 0 : CategoricalEncoder PyLit).add_label
        (.str ['a'])).2.starting_index ∧
      e2.unk_label = ((mkEmpty 0 : CategoricalEncoder PyLit).add_label
        (.str ['a'])).2.unk_label ∧
      e2.bos_label = ((mkEmpty 0 : CategoricalEncoder PyLit).add_label
        (.str ['a'])).2.bos_label ∧
      e2.eos_label = ((mkEmpty 0 : CategoricalEncoder PyLit).add_label
        (.str ['a'])).2.eos_label ∧
      e2.blank_label = ((mkEmpty 0 : CategoricalEncoder PyLit).add_label
        (.str ['a'])).2.blank_label) :=
  ⟨by decide, c5_save_load_roundtrip_amended _ (by decide)⟩

/-- Counterexample to C5 as stated: an encoder holding the (perfectly
literal-representable) string label `"a => b"` saves to an entry line
that `load` cannot parse back — the line splits at the first `" => "`,
which lies inside the label's `repr`, so `int()` raises and the load
fails; no round-tripped encoder exists. -/
theorem c5_save_load_counterexample :
    (encoder_load (mkEmpty 0)
      (encoder_save ((mkEmpty 0 : CategoricalEncoder PyLit).add_label
        (.str ['a', ' ', '=', '>', ' ', 'b'])).2)).isSome = false := by
  decide

end SpeechEmotion
